import Mathlib

/-!
# Verification of the extended-map library

Shallow embedding of the repository's map classes (`ExtMap`, `EnMap`,
`HashMap`, `ArrayMap`, `BoundedHashMap`) and proofs about the claims of
the specification.

Modelling conventions:

* A JavaScript runtime value of declared type `V` is `JSVal V`: either the
  `null` literal or a proper value.  The JavaScript `undefined` is
  represented one level up by `Option.none`, so `Option (JSVal V)` models
  "a value of type `V`, or `null`, or `undefined`".  Stored map slots hold
  `JSVal V` (a JS `Map` can in principle store `undefined` itself, but the
  library's typed surface never does, and the repository's tests only ever
  store `null` as a degenerate value).
* A JavaScript `Map` is modelled as an insertion-ordered association list
  `List (K × A)`: `set` overwrites in place when the key exists and appends
  otherwise, `delete` removes the (unique) entry, iteration order is list
  order.  Key uniqueness is an invariant maintained by these operations
  from the empty map.
-/

set_option autoImplicit false
set_option linter.unusedSectionVars false

namespace ExtendedMap

/-- A JS value of declared type `V`: the `null` literal or a proper value. -/
inductive JSVal (V : Type) where
  | null : JSVal V
  | val : V → JSVal V
deriving DecidableEq

/-- A JS value that may additionally be `undefined` (`Option.none`). -/
abbrev JSOpt (V : Type) := Option (JSVal V)

/-- Model of `__isNullish` (src/EnMap.ts line 3): `v === undefined || v === null`. -/
def isNullish {V : Type} : JSOpt V → Bool
  | none => true
  | some JSVal.null => true
  | some (JSVal.val _) => false

@[simp] theorem isNullish_none {V : Type} : isNullish (none : JSOpt V) = true := rfl

@[simp] theorem isNullish_some_null {V : Type} :
    isNullish (some (JSVal.null : JSVal V)) = true := rfl

@[simp] theorem isNullish_some_val {V : Type} (v : V) :
    isNullish (some (JSVal.val v)) = false := rfl

section JsMap

variable {K A : Type} [DecidableEq K]

/-- `Map.prototype.get`: the value at `k`, or `undefined` (`none`). -/
def jsGet : List (K × A) → K → Option A
  | [], _ => none
  | e :: rest, k => if e.1 = k then some e.2 else jsGet rest k

/-- `Map.prototype.has`. -/
def jsHas (m : List (K × A)) (k : K) : Bool :=
  (jsGet m k).isSome

/-- `Map.prototype.set`: overwrite in place when present, append when absent. -/
def jsSet : List (K × A) → K → A → List (K × A)
  | [], k, a => [(k, a)]
  | e :: rest, k, a => if e.1 = k then (k, a) :: rest else e :: jsSet rest k a

/-- `Map.prototype.delete` (key uniqueness maintained elsewhere): remove the
first entry with the given key, keeping the order of the rest. -/
def jsDelete : List (K × A) → K → List (K × A)
  | [], _ => []
  | e :: rest, k => if e.1 = k then rest else e :: jsDelete rest k

/-- The key sequence of the map. -/
def jsKeys (m : List (K × A)) : List K :=
  m.map Prod.fst

@[simp] theorem jsGet_nil (k : K) : jsGet ([] : List (K × A)) k = none := rfl

@[simp] theorem jsGet_cons (e : K × A) (rest : List (K × A)) (k : K) :
    jsGet (e :: rest) k = if e.1 = k then some e.2 else jsGet rest k := rfl

@[simp] theorem jsSet_nil (k : K) (a : A) : jsSet ([] : List (K × A)) k a = [(k, a)] := rfl

@[simp] theorem jsSet_cons (e : K × A) (rest : List (K × A)) (k : K) (a : A) :
    jsSet (e :: rest) k a = if e.1 = k then (k, a) :: rest else e :: jsSet rest k a := rfl

@[simp] theorem jsDelete_nil (k : K) : jsDelete ([] : List (K × A)) k = [] := rfl

@[simp] theorem jsDelete_cons (e : K × A) (rest : List (K × A)) (k : K) :
    jsDelete (e :: rest) k = if e.1 = k then rest else e :: jsDelete rest k := rfl

@[simp] theorem jsGet_jsSet_self (m : List (K × A)) (k : K) (a : A) :
    jsGet (jsSet m k a) k = some a := by
  induction m with
  | nil => simp [jsSet, jsGet]
  | cons e rest ih =>
      by_cases h : e.1 = k <;> simp [jsSet, jsGet, h, ih]

theorem jsGet_jsSet_ne (m : List (K × A)) (k k' : K) (a : A) (h : k' ≠ k) :
    jsGet (jsSet m k a) k' = jsGet m k' := by
  have h1 : ¬(k = k') := fun hh => h hh.symm
  induction m with
  | nil =>
      simp only [jsSet_nil, jsGet_cons, jsGet_nil]
      rw [if_neg h1]
  | cons e rest ih =>
      by_cases he : e.1 = k
      · have h2 : ¬(e.1 = k') := by rw [he]; exact h1
        simp only [jsSet_cons, if_pos he, jsGet_cons]
        rw [if_neg h1, if_neg h2]
      · simp only [jsSet_cons, if_neg he, jsGet_cons]
        by_cases he' : e.1 = k'
        · rw [if_pos he', if_pos he']
        · rw [if_neg he', if_neg he', ih]

theorem jsGet_jsDelete_ne (m : List (K × A)) (k k' : K) (h : k' ≠ k) :
    jsGet (jsDelete m k) k' = jsGet m k' := by
  induction m with
  | nil => simp [jsDelete]
  | cons e rest ih =>
      by_cases he : e.1 = k
      · have h2 : ¬(e.1 = k') := by rw [he]; exact fun hh => h hh.symm
        simp only [jsDelete_cons, if_pos he, jsGet_cons]
        rw [if_neg h2]
      · simp only [jsDelete_cons, if_neg he, jsGet_cons]
        by_cases he' : e.1 = k'
        · rw [if_pos he', if_pos he']
        · rw [if_neg he', if_neg he', ih]

theorem mem_jsKeys_of_jsGet (m : List (K × A)) (k : K) (a : A)
    (h : jsGet m k = some a) : k ∈ jsKeys m := by
  induction m with
  | nil => simp [jsGet] at h
  | cons e rest ih =>
      simp only [jsGet] at h
      by_cases he : e.1 = k
      · subst he; simp [jsKeys]
      · simp only [if_neg he] at h
        simp only [jsKeys, List.map_cons, List.mem_cons]
        exact Or.inr (ih h)

theorem jsGet_jsDelete_self (m : List (K × A)) (k : K)
    (hnd : (jsKeys m).Nodup) : jsGet (jsDelete m k) k = none := by
  induction m with
  | nil => simp [jsDelete]
  | cons e rest ih =>
      simp only [jsKeys, List.map_cons, List.nodup_cons] at hnd
      by_cases he : e.1 = k
      · subst he
        simp only [jsDelete, if_pos rfl]
        cases hg : jsGet rest e.1 with
        | none => exact hg
        | some a => exact absurd (mem_jsKeys_of_jsGet rest e.1 a hg) hnd.1
      · simp only [jsDelete, if_neg he, jsGet, if_neg he]
        exact ih hnd.2

@[simp] theorem jsHas_iff (m : List (K × A)) (k : K) :
    jsHas m k = true ↔ ∃ a, jsGet m k = some a := by
  simp [jsHas, Option.isSome_iff_exists]

theorem jsGet_of_mem_jsKeys (m : List (K × A)) (k : K) (hmem : k ∈ jsKeys m) :
    ∃ a, jsGet m k = some a := by
  induction m with
  | nil => simp [jsKeys] at hmem
  | cons e rest ih =>
      simp only [jsKeys, List.map_cons, List.mem_cons] at hmem
      by_cases he : e.1 = k
      · exact ⟨e.2, by simp [jsGet, he]⟩
      · rcases hmem with h1 | h2
        · exact absurd h1.symm he
        · rcases ih h2 with ⟨a, ha⟩
          exact ⟨a, by simp [jsGet, he, ha]⟩

theorem jsKeys_jsSet_of_has (m : List (K × A)) (k : K) (a : A)
    (h : jsHas m k = true) : jsKeys (jsSet m k a) = jsKeys m := by
  induction m with
  | nil => simp [jsHas, jsGet] at h
  | cons e rest ih =>
      by_cases he : e.1 = k
      · rw [jsSet_cons, if_pos he]
        simp only [jsKeys, List.map_cons, he]
      · simp only [jsHas, jsGet_cons, if_neg he] at h
        have ih' := ih (by simpa [jsHas] using h)
        rw [jsSet_cons, if_neg he]
        simp only [jsKeys, List.map_cons] at ih' ⊢
        rw [ih']

theorem jsKeys_jsSet_of_not_has (m : List (K × A)) (k : K) (a : A)
    (h : jsHas m k = false) : jsKeys (jsSet m k a) = jsKeys m ++ [k] := by
  induction m with
  | nil => simp [jsSet, jsKeys]
  | cons e rest ih =>
      by_cases he : e.1 = k
      · simp [jsHas, jsGet, he] at h
      · simp only [jsHas, jsGet_cons, if_neg he] at h
        have ih' := ih (by simpa [jsHas] using h)
        rw [jsSet_cons, if_neg he]
        simp only [jsKeys, List.map_cons] at ih' ⊢
        rw [ih']
        rfl

theorem jsKeys_nodup_jsSet (m : List (K × A)) (k : K) (a : A)
    (hnd : (jsKeys m).Nodup) : (jsKeys (jsSet m k a)).Nodup := by
  cases h : jsHas m k
  · rw [jsKeys_jsSet_of_not_has m k a h]
    have hk : k ∉ jsKeys m := by
      intro hmem
      rcases jsGet_of_mem_jsKeys m k hmem with ⟨a, ha⟩
      simp [jsHas, ha] at h
    exact List.Nodup.append hnd (List.nodup_singleton k)
      (by simpa [List.disjoint_singleton] using hk)
  · rw [jsKeys_jsSet_of_has m k a h]; exact hnd

theorem length_jsSet_of_has (m : List (K × A)) (k : K) (a : A)
    (h : jsHas m k = true) : (jsSet m k a).length = m.length := by
  have := jsKeys_jsSet_of_has m k a h
  have h1 : (jsKeys (jsSet m k a)).length = (jsKeys m).length := by rw [this]
  simpa [jsKeys] using h1

theorem length_jsSet_of_not_has (m : List (K × A)) (k : K) (a : A)
    (h : jsHas m k = false) : (jsSet m k a).length = m.length + 1 := by
  have := jsKeys_jsSet_of_not_has m k a h
  have h1 : (jsKeys (jsSet m k a)).length = (jsKeys m).length + 1 := by simp [this]
  simpa [jsKeys] using h1

theorem length_jsDelete_of_has (m : List (K × A)) (k : K)
    (h : jsHas m k = true) : (jsDelete m k).length + 1 = m.length := by
  induction m with
  | nil => simp [jsHas, jsGet] at h
  | cons e rest ih =>
      by_cases he : e.1 = k
      · simp [jsDelete, he]
      · simp only [jsHas, jsGet, if_neg he] at h
        simp [jsDelete, he, ih (by simpa [jsHas] using h)]

theorem length_jsDelete_of_not_has (m : List (K × A)) (k : K)
    (h : jsHas m k = false) : jsDelete m k = m := by
  induction m with
  | nil => simp [jsDelete]
  | cons e rest ih =>
      by_cases he : e.1 = k
      · simp [jsHas, jsGet, he] at h
      · simp only [jsHas, jsGet, if_neg he] at h
        simp [jsDelete, he, ih (by simpa [jsHas] using h)]

theorem jsKeys_jsDelete_sublist (m : List (K × A)) (k : K) :
    (jsKeys (jsDelete m k)).Sublist (jsKeys m) := by
  induction m with
  | nil => simp [jsDelete]
  | cons e rest ih =>
      by_cases he : e.1 = k
      · simp only [jsDelete, if_pos he, jsKeys, List.map_cons]
        exact List.sublist_cons_self _ _
      · simp only [jsDelete, if_neg he, jsKeys, List.map_cons]
        exact List.Sublist.cons₂ _ ih

theorem jsKeys_nodup_jsDelete (m : List (K × A)) (k : K)
    (hnd : (jsKeys m).Nodup) : (jsKeys (jsDelete m k)).Nodup :=
  (jsKeys_jsDelete_sublist m k).nodup hnd

end JsMap

/-! ## HashMap (src/maps/HashMap.ts)

State: the backing JS `Map<K, V>`, i.e. an insertion-ordered association
list of `K × JSVal V`.  Each operation returns its JS return value paired
with the state after the call. -/

section HashMapOps

variable {K V : Type} [DecidableEq K] [DecidableEq V]

/-- The backing store of `HashMap`, `ExtMap` and `EnMap`. -/
abbrev HMap (K V : Type) := List (K × JSVal V)

/-- `HashMap.set` (lines 68-71): unconditional `Map.set`. -/
def hashSet (m : HMap K V) (k : K) (v : JSVal V) : HMap K V :=
  jsSet m k v

/-- `HashMap.delete` (lines 54-66): one-argument form when `value` is
`none` (i.e. `undefined`), two-argument conditional form otherwise. -/
def hashDelete (m : HMap K V) (k : K) (value : JSOpt V) : Bool × HMap K V :=
  match value with
  | none => (jsHas m k, jsDelete m k)
  | some ev => if jsGet m k = some ev then (true, jsDelete m k) else (false, m)

/-- `HashMap.put` (lines 241-245): overwrite and return the previous value. -/
def hashPut (m : HMap K V) (k : K) (v : JSVal V) : JSOpt V × HMap K V :=
  (jsGet m k, jsSet m k v)

/-- `HashMap.compute` (lines 188-196): always call `fn`; delete on an
`undefined` result, otherwise store the result. -/
def hashCompute (m : HMap K V) (k : K) (fn : K → JSOpt V → JSOpt V) :
    JSOpt V × HMap K V :=
  match fn k (jsGet m k) with
  | none => (none, jsDelete m k)
  | some nv => (some nv, jsSet m k nv)

/-- `HashMap.computeIfAbsent` (lines 198-206): branch on
`existingValue === undefined` — a stored `null` counts as present here. -/
def hashComputeIfAbsent (m : HMap K V) (k : K) (fn : K → JSVal V) :
    JSVal V × HMap K V :=
  match jsGet m k with
  | none => (fn k, jsSet m k (fn k))
  | some ev => (ev, m)

/-- `HashMap.computeIfPresent` (lines 208-220): branch on
`existingValue !== undefined`; delete on an `undefined` result. -/
def hashComputeIfPresent (m : HMap K V) (k : K) (fn : K → JSVal V → JSOpt V) :
    JSOpt V × HMap K V :=
  match jsGet m k with
  | some ev =>
      match fn k ev with
      | none => (none, jsDelete m k)
      | some nv => (some nv, jsSet m k nv)
  | none => (none, m)

/-- `HashMap.merge` (lines 230-239): `existingValue !== undefined ?
fn(existingValue, value) : value`, then delete iff the result is
`=== undefined`. -/
def hashMerge (m : HMap K V) (k : K) (v : JSVal V)
    (fn : JSVal V → JSVal V → JSOpt V) : JSOpt V × HMap K V :=
  let newValue : JSOpt V :=
    match jsGet m k with
    | some ev => fn ev v
    | none => some v
  match newValue with
  | none => (none, jsDelete m k)
  | some nv => (some nv, jsSet m k nv)

/-- `HashMap.setIfAbsent` (lines 279-286): branch on
`existingValue === undefined` — a stored `null` counts as present here. -/
def hashSetIfAbsent (m : HMap K V) (k : K) (v : JSVal V) : JSVal V × HMap K V :=
  match jsGet m k with
  | none => (v, jsSet m k v)
  | some ev => (ev, m)

end HashMapOps

/-! ## ExtMap (src/ExtMap.ts), EnMap (src/EnMap.ts)

Both extend the native `Map` directly, so they share the `HMap` state. -/

section ExtEnOps

variable {K V : Type} [DecidableEq K] [DecidableEq V]

/-- `ExtMap.computeIfAbsent` (lines 45-52): branch on
`value === undefined || value === null` (the nullish test). -/
def extComputeIfAbsent (m : HMap K V) (k : K) (fn : K → JSVal V) :
    JSVal V × HMap K V :=
  match jsGet m k with
  | some (JSVal.val v0) => (JSVal.val v0, m)
  | _ => (fn k, jsSet m k (fn k))

/-- `ExtMap.computeIfPresent` (lines 62-74): branch on
`oldValue !== undefined` — so `fn` runs even on a stored `null`; a nullish
result deletes the key and `undefined` is returned. -/
def extComputeIfPresent (m : HMap K V) (k : K) (fn : K → JSVal V → JSOpt V) :
    JSOpt V × HMap K V :=
  match jsGet m k with
  | some ov =>
      match fn k ov with
      | none => (none, jsDelete m k)
      | some JSVal.null => (none, jsDelete m k)
      | some nv => (some nv, jsSet m k nv)
  | none => (none, m)

/-- `ExtMap.merge` (lines 149-154): `oldValue !== undefined ?
fn(oldValue, value) : value`, then always `set` — never deletes. -/
def extMerge (m : HMap K V) (k : K) (v : JSVal V)
    (fn : JSVal V → JSVal V → JSVal V) : JSVal V × HMap K V :=
  let newValue : JSVal V :=
    match jsGet m k with
    | some ov => fn ov v
    | none => v
  (newValue, jsSet m k newValue)

/-- `ExtMap.setIfAbsent` (lines 201-211): three-way branch on
`=== undefined` / `=== null` / usable value. -/
def extSetIfAbsent (m : HMap K V) (k : K) (v : JSVal V) : JSVal V × HMap K V :=
  match jsGet m k with
  | none => (v, jsSet m k v)
  | some JSVal.null => (JSVal.null, jsSet m k v)
  | some (JSVal.val w) => (JSVal.val w, m)

/-- `ExtMap.sweep` (lines 219-228): iterate the live map, deleting the
current entry when the predicate holds and collecting its value.  A JS
`Map` iterator still visits all later entries when the current entry is
deleted, so the loop is an in-order filter of the entries present at the
start of the call. -/
def extSweep (fn : JSVal V → K → Bool) : HMap K V → List (JSVal V) × HMap K V
  | [] => ([], [])
  | e :: rest =>
      let r := extSweep fn rest
      if fn e.2 e.1 then (e.2 :: r.1, r.2) else (r.1, e :: r.2)

/-- `EnMap.compute` (lines 14-24): always call `fn`; delete and return
`undefined` on a nullish result. -/
def enCompute (m : HMap K V) (k : K) (fn : K → JSOpt V → JSOpt V) :
    JSOpt V × HMap K V :=
  match fn k (jsGet m k) with
  | none => (none, jsDelete m k)
  | some JSVal.null => (none, jsDelete m k)
  | some nv => (some nv, jsSet m k nv)

/-- `EnMap.computeIfAbsent` (lines 26-35): branch on `__isNullish(value)`. -/
def enComputeIfAbsent (m : HMap K V) (k : K) (fn : K → JSVal V) :
    JSVal V × HMap K V :=
  match jsGet m k with
  | some (JSVal.val v0) => (JSVal.val v0, m)
  | _ => (fn k, jsSet m k (fn k))

/-- `EnMap.computeIfPresent` (lines 37-53): run `fn` only when the old
value is non-nullish; delete and return `undefined` on a nullish result. -/
def enComputeIfPresent (m : HMap K V) (k : K) (fn : K → JSVal V → JSOpt V) :
    JSOpt V × HMap K V :=
  match jsGet m k with
  | some (JSVal.val v0) =>
      match fn k (JSVal.val v0) with
      | none => (none, jsDelete m k)
      | some JSVal.null => (none, jsDelete m k)
      | some nv => (some nv, jsSet m k nv)
  | _ => (none, m)

/-- `EnMap.merge` (lines 153-162): `!__isNullish(oldValue) ?
fn(oldValue, value) : value`, then always `set` and return the result —
this version never deletes, whatever `fn` returns. -/
def enMerge (m : HMap K V) (k : K) (v : JSVal V)
    (fn : JSVal V → JSVal V → JSVal V) : JSVal V × HMap K V :=
  let newValue : JSVal V :=
    match jsGet m k with
    | some (JSVal.val v0) => fn (JSVal.val v0) v
    | _ => v
  (newValue, jsSet m k newValue)

/-- `EnMap.setIfAbsent` (lines 185-194): branch on `__isNullish`; on the
nullish branch it stores `value` and returns `value` (not the old `null`). -/
def enSetIfAbsent (m : HMap K V) (k : K) (v : JSVal V) : JSVal V × HMap K V :=
  match jsGet m k with
  | some (JSVal.val v0) => (JSVal.val v0, m)
  | _ => (v, jsSet m k v)

end ExtEnOps

/-! ## BoundedHashMap (src/maps/BoundedMap.ts)

`BoundedHashMap extends HashMap` with a capacity and a strictness flag.
`capacity` is kept as an `Int` because the iterable constructor overload
stores its second argument without validating it. -/

section Bounded

variable {K V : Type} [DecidableEq K] [DecidableEq V]

/-- The fields of a `BoundedHashMap` after construction. -/
structure BState (K V : Type) where
  map : HMap K V
  capacity : Int
  strict : Bool
deriving DecidableEq

/-- Outcome of `BoundedHashMap.set` (lines 23-34). -/
inductive BSetResult (K V : Type) where
  /-- The guard passed: `return super.set(key, value)`; carries the new map. -/
  | thisRef (map : HMap K V)
  /-- Lenient rejection: `console.warn(msg)` then `return super.get(key)`. -/
  | rejectedWarn (ret : JSOpt V)
  /-- Strict rejection: `throw new Error(msg)`; the message carries the capacity. -/
  | errorCapacity (capacity : Int)
deriving DecidableEq

/-- `BoundedHashMap.set` (lines 23-34): an existing key always delegates; a
new key is rejected when `size >= capacity`, by exception when strict and by
warn-and-return otherwise. -/
def boundedSet (s : BState K V) (k : K) (v : JSVal V) : BSetResult K V :=
  if !jsHas s.map k && ((s.map.length : Int) ≥ s.capacity) then
    if s.strict then BSetResult.errorCapacity s.capacity
    else BSetResult.rejectedWarn (jsGet s.map k)
  else BSetResult.thisRef (jsSet s.map k v)

/-- The state after `BoundedHashMap.set`: only the delegating branch
mutates; the lenient return and the thrown exception leave the map as is. -/
def boundedSetState (s : BState K V) (k : K) (v : JSVal V) : BState K V :=
  match boundedSet s k v with
  | BSetResult.thisRef m => { s with map := m }
  | _ => s

/-- Outcome of the `BoundedHashMap` constructor. -/
inductive BNew (K V : Type) where
  | ok (s : BState K V)
  /-- `throw new Error("Invalid constructor arguments")`. -/
  | invalidConfig
deriving DecidableEq

/-- Constructor overload `(capacity, strict?)` (lines 9-13, 18-20): requires
a number `> 0`, otherwise (the value being no iterable either) throws.
`strict` defaults to `false` via `arg2 ?? false`. -/
def boundedNew1 (capacity : Int) (strict : Option Bool) : BNew K V :=
  if capacity > 0 then BNew.ok ⟨[], capacity, strict.getD false⟩
  else BNew.invalidConfig

/-- Constructor overload `(entries, capacity, strict?)` (lines 14-17): runs
`this.setAll(arg1)` BEFORE `this._capacity = arg2` is assigned.  `setAll`
calls the overridden `set`, whose guard compares `this.size >=
this._capacity` with `_capacity` still `undefined`; in JS that comparison
is `false`, so every initial entry is inserted unconditionally (modelled as
a plain `jsSet` fold).  The capacity is stored afterwards, unvalidated. -/
def boundedNew2 (entries : List (K × JSVal V)) (capacity : Int)
    (strict : Option Bool) : BState K V :=
  ⟨entries.foldl (fun m e => jsSet m e.1 e.2) [], capacity, strict.getD false⟩

/-- The mutating operations available on a constructed `BoundedHashMap`
(all inherited from `HashMap`; `this.set` inside them dispatches to the
override, while `this._map.delete` bypasses it). `put` is deliberately
absent here: `HashMap.put` writes `this._map.set` directly and so is not
capacity-guarded (see the C8 analysis). -/
inductive BOp (K V : Type) where
  | set (k : K) (v : JSVal V)
  | del (k : K) (value : JSOpt V)
  | clear
  | compute (k : K) (fn : K → JSOpt V → JSOpt V)
  | computeIfAbsent (k : K) (fn : K → JSVal V)
  | computeIfPresent (k : K) (fn : K → JSVal V → JSOpt V)
  | merge (k : K) (v : JSVal V) (fn : JSVal V → JSVal V → JSOpt V)
  | setIfAbsent (k : K) (v : JSVal V)
  | replace2 (k : K) (v : JSVal V)
  | replace3 (k : K) (old : JSVal V) (v : JSVal V)

/-- State transition of each inherited `HashMap` method run on a
`BoundedHashMap` instance: the bodies are those of HashMap.ts with
`this.set` dispatching to `boundedSetState` and `this._map.delete` direct. -/
def bApply (s : BState K V) : BOp K V → BState K V
  | BOp.set k v => boundedSetState s k v
  | BOp.del k value =>
      match value with
      | none => { s with map := jsDelete s.map k }
      | some ev =>
          if jsGet s.map k = some ev then { s with map := jsDelete s.map k } else s
  | BOp.clear => { s with map := [] }
  | BOp.compute k fn =>
      match fn k (jsGet s.map k) with
      | none => { s with map := jsDelete s.map k }
      | some nv => boundedSetState s k nv
  | BOp.computeIfAbsent k fn =>
      match jsGet s.map k with
      | none => boundedSetState s k (fn k)
      | some _ => s
  | BOp.computeIfPresent k fn =>
      match jsGet s.map k with
      | some ev =>
          match fn k ev with
          | none => { s with map := jsDelete s.map k }
          | some nv => boundedSetState s k nv
      | none => s
  | BOp.merge k v fn =>
      match (match jsGet s.map k with
             | some ev => fn ev v
             | none => some v) with
      | none => { s with map := jsDelete s.map k }
      | some nv => boundedSetState s k nv
  | BOp.setIfAbsent k v =>
      match jsGet s.map k with
      | none => boundedSetState s k v
      | some _ => s
  | BOp.replace2 k v =>
      match jsGet s.map k with
      | none => s
      | some _ => boundedSetState s k v
  | BOp.replace3 k old v =>
      match jsGet s.map k with
      | some ev => if ev = old then boundedSetState s k v else s
      | none => s

/-- Run a sequence of operations. -/
def bRun (s : BState K V) (ops : List (BOp K V)) : BState K V :=
  ops.foldl bApply s

end Bounded

/-! ## ArrayMap (src/maps/ArrayMap.ts)

Parallel `keys`/`values` arrays plus a key→position index (a JS `Map`).
Out-of-range array reads (impossible while the structural invariant holds)
are modelled with `Option`; the branches marked "unreachable under the
invariant" say what the model does where JS would read `undefined`. -/

section ArrayMapOps

variable {K V : Type} [DecidableEq K] [DecidableEq V]

/-- The three private fields of an `ArrayMap`. -/
structure AState (K V : Type) where
  index : List (K × Nat)
  keys : List K
  values : List (JSVal V)
deriving DecidableEq

/-- `new ArrayMap()` with no entries. -/
def arrEmpty : AState K V := ⟨[], [], []⟩

/-- `ArrayMap.get` (lines 41-47). -/
def arrGet (s : AState K V) (k : K) : JSOpt V :=
  match jsGet s.index k with
  | none => none
  | some i => s.values[i]?

/-- `ArrayMap.has` (lines 49-51). -/
def arrHas (s : AState K V) (k : K) : Bool :=
  jsHas s.index k

/-- `ArrayMap.size` (lines 72-74): `this._index.size`. -/
def arrSize (s : AState K V) : Nat :=
  s.index.length

/-- `ArrayMap.set` (lines 140-150): overwrite in place when indexed,
append to both arrays and index the new position otherwise. -/
def arrSet (s : AState K V) (k : K) (v : JSVal V) : AState K V :=
  match jsGet s.index k with
  | some i => { s with values := s.values.set i v }
  | none =>
      { index := jsSet s.index k s.values.length
        keys := s.keys ++ [k]
        values := s.values ++ [v] }

/-- `ArrayMap.clear` (lines 105-109). -/
def arrClear : AState K V := ⟨[], [], []⟩

/-- The common tail of `ArrayMap.delete` (lines 123-137): remove the index
entry, swap the tail entry into the freed slot when needed, pop both
arrays. -/
def arrDeleteCore (s : AState K V) (k : K) (i : Nat) : AState K V :=
  let tailIndex := s.values.length - 1
  let index1 := jsDelete s.index k
  if i = tailIndex then
    ⟨index1, s.keys.dropLast, s.values.dropLast⟩
  else
    match s.keys[tailIndex]?, s.values[tailIndex]? with
    | some tailKey, some tailValue =>
        ⟨jsSet index1 tailKey i,
         (s.keys.set i tailKey).dropLast,
         (s.values.set i tailValue).dropLast⟩
    | _, _ =>
        -- unreachable under the invariant (arrays shorter than the index)
        ⟨index1, s.keys.dropLast, s.values.dropLast⟩

/-- `ArrayMap.delete` (lines 111-138), both overloads: `value = none`
models the one-argument call (or an explicit `undefined`). -/
def arrDelete (s : AState K V) (k : K) (value : JSOpt V) : Bool × AState K V :=
  match jsGet s.index k with
  | none => (false, s)
  | some i =>
      match value with
      | some ev =>
          if s.values[i]? ≠ some ev then (false, s) else (true, arrDeleteCore s k i)
      | none => (true, arrDeleteCore s k i)

/-- `ArrayMap.put` (lines 355-368). -/
def arrPut (s : AState K V) (k : K) (v : JSVal V) : JSOpt V × AState K V :=
  match jsGet s.index k with
  | some i => (s.values[i]?, { s with values := s.values.set i v })
  | none =>
      (none,
       { index := jsSet s.index k s.values.length
         keys := s.keys ++ [k]
         values := s.values ++ [v] })

/-- `ArrayMap.compute` (lines 301-311): always call `fn`, delete on an
`undefined` result, store otherwise. -/
def arrCompute (s : AState K V) (k : K) (fn : K → JSOpt V → JSOpt V) :
    JSOpt V × AState K V :=
  let oldValue : JSOpt V :=
    match jsGet s.index k with
    | some i => s.values[i]?
    | none => none
  match fn k oldValue with
  | none => (none, (arrDelete s k none).2)
  | some nv => (some nv, arrSet s k nv)

/-- `ArrayMap.computeIfAbsent` (lines 313-321): branch on index presence. -/
def arrComputeIfAbsent (s : AState K V) (k : K) (fn : K → JSVal V) :
    JSOpt V × AState K V :=
  match jsGet s.index k with
  | some i => (s.values[i]?, s)
  | none => (some (fn k), arrSet s k (fn k))

/-- `ArrayMap.computeIfPresent` (lines 323-334): on a present index, run
`fn`; delete on `undefined` result, else write the value slot in place. -/
def arrComputeIfPresent (s : AState K V) (k : K) (fn : K → JSVal V → JSOpt V) :
    JSOpt V × AState K V :=
  match jsGet s.index k with
  | some i =>
      match s.values[i]? with
      | some ov =>
          match fn k ov with
          | none => (none, (arrDelete s k none).2)
          | some nv => (some nv, { s with values := s.values.set i nv })
      | none => (none, s) -- unreachable under the invariant
  | none => (none, s)

/-- `ArrayMap.merge` (lines 344-353): note the loose `newValue == undefined`
test — both `undefined` and `null` results delete the key; the raw result is
returned either way. -/
def arrMerge (s : AState K V) (k : K) (v : JSVal V)
    (fn : JSVal V → JSVal V → JSOpt V) : JSOpt V × AState K V :=
  let newValue : JSOpt V :=
    match jsGet s.index k with
    | some i =>
        match s.values[i]? with
        | some ov => fn ov v
        | none => some v -- unreachable under the invariant
    | none => some v
  match newValue with
  | none => (none, (arrDelete s k none).2)
  | some JSVal.null => (some JSVal.null, (arrDelete s k none).2)
  | some nv => (some nv, arrSet s k nv)

/-- `ArrayMap.setIfAbsent` (lines 401-408): branch on index presence. -/
def arrSetIfAbsent (s : AState K V) (k : K) (v : JSVal V) :
    JSOpt V × AState K V :=
  match jsGet s.index k with
  | none => (some v, arrSet s k v)
  | some i => (s.values[i]?, s)

/-- `ArrayMap.replace` two-argument overload (lines 370-382). -/
def arrReplace2 (s : AState K V) (k : K) (v : JSVal V) : JSOpt V × AState K V :=
  match jsGet s.index k with
  | none => (none, s)
  | some i => (s.values[i]?, { s with values := s.values.set i v })

/-- `ArrayMap.replace` three-argument overload (lines 383-390). -/
def arrReplace3 (s : AState K V) (k : K) (old v : JSVal V) :
    Bool × AState K V :=
  match jsGet s.index k with
  | some i =>
      if s.values[i]? = some old then
        (true, { s with values := s.values.set i v })
      else (false, s)
  | none => (false, s)

/-- `ArrayMap.setAll` (lines 393-399): note the constructor calls it with
`override` left `undefined`, which is falsy, so duplicates keep the first
occurrence there. -/
def arrSetAll (s : AState K V) (entries : List (K × JSVal V))
    (override : Bool) : AState K V :=
  entries.foldl
    (fun s2 e => if override || !arrHas s2 e.1 then arrSet s2 e.1 e.2 else s2) s

/-- `ArrayMap.sweep` (lines 280-293): first loop collects the matching
entries (of the untouched arrays, in scan order) into a fresh `ArrayMap`;
second loop deletes the collected keys from `this`.  Returns the collected
map and the state after the deletions. -/
def arrSweep (s : AState K V) (fn : JSVal V → K → Bool) :
    AState K V × AState K V :=
  let hits := (s.keys.zip s.values).filter (fun e => fn e.2 e.1)
  let result := hits.foldl (fun r e => arrSet r e.1 e.2) arrEmpty
  (result, result.keys.foldl (fun s2 k => (arrDelete s2 k none).2) s)

end ArrayMapOps

/-! ## ArrayMap: mutating-operation syntax, invariant, and reference model -/

section ArrayMapInv

variable {K V : Type} [DecidableEq K] [DecidableEq V]

/-- One mutating `ArrayMap` call (the operations listed by the invariant
claim); callbacks are arbitrary pure functions. -/
inductive AOp (K V : Type) where
  | set (k : K) (v : JSVal V)
  | put (k : K) (v : JSVal V)
  | del (k : K) (value : JSOpt V)
  | compute (k : K) (fn : K → JSOpt V → JSOpt V)
  | computeIfAbsent (k : K) (fn : K → JSVal V)
  | computeIfPresent (k : K) (fn : K → JSVal V → JSOpt V)
  | merge (k : K) (v : JSVal V) (fn : JSVal V → JSVal V → JSOpt V)
  | setIfAbsent (k : K) (v : JSVal V)
  | replace2 (k : K) (v : JSVal V)
  | replace3 (k : K) (old : JSVal V) (v : JSVal V)
  | setAll (entries : List (K × JSVal V)) (override : Bool)
  | sweep (fn : JSVal V → K → Bool)
  | clear

/-- The state transition of each mutating call (return values dropped). -/
def aApply (s : AState K V) : AOp K V → AState K V
  | AOp.set k v => arrSet s k v
  | AOp.put k v => (arrPut s k v).2
  | AOp.del k value => (arrDelete s k value).2
  | AOp.compute k fn => (arrCompute s k fn).2
  | AOp.computeIfAbsent k fn => (arrComputeIfAbsent s k fn).2
  | AOp.computeIfPresent k fn => (arrComputeIfPresent s k fn).2
  | AOp.merge k v fn => (arrMerge s k v fn).2
  | AOp.setIfAbsent k v => (arrSetIfAbsent s k v).2
  | AOp.replace2 k v => (arrReplace2 s k v).2
  | AOp.replace3 k old v => (arrReplace3 s k old v).2
  | AOp.setAll entries override => arrSetAll s entries override
  | AOp.sweep fn => (arrSweep s fn).2
  | AOp.clear => arrClear

/-- Run a call sequence from a fresh `ArrayMap`. -/
def aRun (ops : List (AOp K V)) : AState K V :=
  ops.foldl aApply arrEmpty

/-- Structural invariant of `ArrayMap` (spec §3 "Array-backed container
state"): the index, key and value sequences have equal size and the index
is exactly the position of each key. -/
structure AWF (s : AState K V) : Prop where
  len_idx : s.index.length = s.keys.length
  len_kv : s.keys.length = s.values.length
  idx_nodup : (jsKeys s.index).Nodup
  keys_of_get : ∀ k i, jsGet s.index k = some i → s.keys[i]? = some k
  get_of_keys : ∀ (i : Nat) k, s.keys[i]? = some k → jsGet s.index k = some i

/-- Update one key of an abstract map. -/
def mUpdate (m : K → JSOpt V) (k : K) (v : JSOpt V) : K → JSOpt V :=
  fun k2 => if k2 = k then v else m k2

/-- Reference model of each mutating call, following the specification's
description of the operations (§4.3, §4.4) on an abstract key→value map.
The refinement theorem compares `arrGet` after `aApply` with this. -/
def modelApply (m : K → JSOpt V) : AOp K V → (K → JSOpt V)
  | AOp.set k v => mUpdate m k (some v)
  | AOp.put k v => mUpdate m k (some v)
  | AOp.del k value =>
      match value with
      | none => mUpdate m k none
      | some ev => if m k = some ev then mUpdate m k none else m
  | AOp.compute k fn =>
      match fn k (m k) with
      | none => mUpdate m k none
      | some nv => mUpdate m k (some nv)
  | AOp.computeIfAbsent k fn =>
      match m k with
      | none => mUpdate m k (some (fn k))
      | some _ => m
  | AOp.computeIfPresent k fn =>
      match m k with
      | some ov =>
          match fn k ov with
          | none => mUpdate m k none
          | some nv => mUpdate m k (some nv)
      | none => m
  | AOp.merge k v fn =>
      match (match m k with
             | some ov => fn ov v
             | none => some v) with
      | none => mUpdate m k none
      | some JSVal.null => mUpdate m k none
      | some nv => mUpdate m k (some nv)
  | AOp.setIfAbsent k v =>
      match m k with
      | none => mUpdate m k (some v)
      | some _ => m
  | AOp.replace2 k v =>
      match m k with
      | none => m
      | some _ => mUpdate m k (some v)
  | AOp.replace3 k old v =>
      if m k = some old then mUpdate m k (some v) else m
  | AOp.setAll entries override =>
      entries.foldl
        (fun m2 e =>
          if override || !(m2 e.1).isSome then mUpdate m2 e.1 (some e.2) else m2) m
  | AOp.sweep fn =>
      fun k2 =>
        match m k2 with
        | some v => if fn v k2 then none else some v
        | none => none
  | AOp.clear => fun _ => none

/-- Run the reference model over a call sequence from the empty map. -/
def modelRun (ops : List (AOp K V)) : K → JSOpt V :=
  ops.foldl modelApply (fun _ => none)

theorem AWF.empty : AWF (arrEmpty : AState K V) := by
  refine ⟨rfl, rfl, List.nodup_nil, ?_, ?_⟩ <;> intro i k h <;> simp [arrEmpty, jsGet] at h

theorem AWF.idx_lt (s : AState K V) (hw : AWF s) (k : K) (i : Nat)
    (h : jsGet s.index k = some i) : i < s.keys.length := by
  rcases List.getElem?_eq_some.mp (hw.keys_of_get k i h) with ⟨hl, _⟩
  exact hl

theorem AWF.values_at (s : AState K V) (hw : AWF s) (k : K) (i : Nat)
    (h : jsGet s.index k = some i) : ∃ ov, s.values[i]? = some ov := by
  have hi : i < s.values.length := hw.len_kv ▸ hw.idx_lt s k i h
  cases hv : s.values[i]? with
  | some ov => exact ⟨ov, rfl⟩
  | none => rw [List.getElem?_eq_none_iff] at hv; omega

theorem arrGet_present (s : AState K V) (k : K) (i : Nat)
    (h : jsGet s.index k = some i) : arrGet s k = s.values[i]? := by
  simp [arrGet, h]

theorem arrGet_absent (s : AState K V) (k : K)
    (h : jsGet s.index k = none) : arrGet s k = none := by
  simp [arrGet, h]

theorem AWF.has_iff_get (s : AState K V) (hw : AWF s) (k : K) :
    arrHas s k = (arrGet s k).isSome := by
  cases h : jsGet s.index k with
  | none => simp [arrHas, jsHas, h, arrGet_absent s k h]
  | some i =>
      rcases hw.values_at s k i h with ⟨ov, hov⟩
      simp [arrHas, jsHas, h, arrGet_present s k i h, hov]

theorem AWF.keys_nodup (s : AState K V) (hw : AWF s) : s.keys.Nodup := by
  rw [List.nodup_iff_getElem?_ne_getElem?]
  intro i j hij hj heq
  have h1 : i < s.keys.length := Nat.lt_trans hij hj
  have hjj := List.getElem?_eq_getElem (l := s.keys) hj
  have e1 := hw.get_of_keys i _ (heq.trans hjj)
  have e2 := hw.get_of_keys j _ hjj
  rw [e2] at e1
  have : j = i := by simpa using e1
  omega

theorem getElem?_dropLast_of_lt {α : Type} (l : List α) (i : Nat)
    (h : i < l.length - 1) : l.dropLast[i]? = l[i]? := by
  rw [List.dropLast_eq_take, List.getElem?_take_of_lt h]

theorem getElem?_concat_len {α : Type} (l : List α) (a : α) :
    (l ++ [a])[l.length]? = some a := by simp

theorem arrSet_step (s : AState K V) (hw : AWF s) (k : K) (v : JSVal V) :
    AWF (arrSet s k v) ∧
    ∀ k2, arrGet (arrSet s k v) k2 = mUpdate (arrGet s) k (some v) k2 := by
  cases h : jsGet s.index k with
  | some i =>
      have hik := hw.keys_of_get k i h
      have hilt := hw.idx_lt s k i h
      have hivlt : i < s.values.length := hw.len_kv ▸ hilt
      have hstate : arrSet s k v = { s with values := s.values.set i v } := by
        simp [arrSet, h]
      rw [hstate]
      constructor
      · exact ⟨by simpa using hw.len_idx, by simpa using hw.len_kv,
          hw.idx_nodup, hw.keys_of_get, hw.get_of_keys⟩
      · intro k2
        by_cases hk2 : k2 = k
        · subst hk2
          simp only [mUpdate, if_pos rfl, arrGet, h]
          exact List.getElem?_set_eq_of_lt v hivlt
        · simp only [mUpdate, if_neg hk2]
          cases h2 : jsGet s.index k2 with
          | none => simp [arrGet, h2]
          | some j =>
              have hjk := hw.keys_of_get k2 j h2
              have hij : i ≠ j := by
                intro he
                rw [he] at hik
                rw [hik] at hjk
                have hkk : k = k2 := by simpa using hjk
                exact hk2 hkk.symm
              simp only [arrGet, h2]
              exact List.getElem?_set_ne hij
  | none =>
      have hnh : jsHas s.index k = false := by simp [jsHas, h]
      have hstate : arrSet s k v =
          ⟨jsSet s.index k s.values.length, s.keys ++ [k], s.values ++ [v]⟩ := by
        simp [arrSet, h]
      rw [hstate]
      have hkv := hw.len_kv
      have hlen : (jsSet s.index k s.values.length).length = s.index.length + 1 :=
        length_jsSet_of_not_has s.index k s.values.length hnh
      refine ⟨⟨?_, ?_, ?_, ?_, ?_⟩, ?_⟩
      · rw [hlen, hw.len_idx]; simp
      · simp [hkv]
      · exact jsKeys_nodup_jsSet s.index k s.values.length hw.idx_nodup
      · intro k2 j hj
        by_cases hk2 : k2 = k
        · subst hk2
          rw [jsGet_jsSet_self] at hj
          have hjv : j = s.values.length := by simpa using hj.symm
          subst hjv
          rw [← hkv]
          exact getElem?_concat_len s.keys k2
        · rw [jsGet_jsSet_ne s.index k k2 s.values.length hk2] at hj
          have := hw.keys_of_get k2 j hj
          have hjl := hw.idx_lt s k2 j hj
          rw [List.getElem?_append_left hjl]
          exact this
      · intro i k2 hik2
        rcases Nat.lt_trichotomy i s.keys.length with hlt | heq | hgt
        · rw [List.getElem?_append_left hlt] at hik2
          have := hw.get_of_keys i k2 hik2
          have hne : k2 ≠ k := by
            intro he
            rw [he, h] at this
            exact Option.noConfusion this
          rw [jsGet_jsSet_ne s.index k k2 s.values.length hne]
          exact this
        · subst heq
          rw [← hkv] at hik2
          rw [getElem?_concat_len s.keys k] at hik2
          have hk2 : k2 = k := by simpa using hik2.symm
          subst hk2
          rw [jsGet_jsSet_self]
          rw [hkv]
        · have : (s.keys ++ [k])[i]? = none :=
            List.getElem?_eq_none (by simp; omega)
          rw [this] at hik2
          exact Option.noConfusion hik2
      · intro k2
        by_cases hk2 : k2 = k
        · subst hk2
          simp only [mUpdate, if_pos rfl, arrGet, jsGet_jsSet_self]
          exact getElem?_concat_len s.values v
        · simp only [mUpdate, if_neg hk2, arrGet,
            jsGet_jsSet_ne s.index k k2 s.values.length hk2]
          cases h2 : jsGet s.index k2 with
          | none => rfl
          | some j =>
              have hjl : j < s.values.length := hkv ▸ hw.idx_lt s k2 j h2
              exact List.getElem?_append_left hjl

theorem arrDeleteCore_step (s : AState K V) (hw : AWF s) (k : K) (i : Nat)
    (h : jsGet s.index k = some i) :
    AWF (arrDeleteCore s k i) ∧
    (∀ k2, arrGet (arrDeleteCore s k i) k2 = mUpdate (arrGet s) k none k2) ∧
    arrSize (arrDeleteCore s k i) = arrSize s - 1 := by
  have hik := hw.keys_of_get k i h
  have hilt := hw.idx_lt s k i h
  have hkv := hw.len_kv
  have hli := hw.len_idx
  have hivlt : i < s.values.length := hkv ▸ hilt
  have hhas : jsHas s.index k = true := by simp [jsHas, h]
  have hdlen : (jsDelete s.index k).length + 1 = s.index.length :=
    length_jsDelete_of_has s.index k hhas
  have hdnd := jsKeys_nodup_jsDelete s.index k hw.idx_nodup
  by_cases hit : i = s.values.length - 1
  · -- the removed slot is already the tail: plain pop
    have hstate : arrDeleteCore s k i =
        ⟨jsDelete s.index k, s.keys.dropLast, s.values.dropLast⟩ := by
      simp [arrDeleteCore, hit]
    rw [hstate]
    refine ⟨⟨?_, ?_, hdnd, ?_, ?_⟩, ?_, ?_⟩
    · simp only [List.length_dropLast]
      omega
    · simp [hkv]
    · intro k2 j hj
      by_cases hk2 : k2 = k
      · subst hk2
        rw [jsGet_jsDelete_self s.index k2 hw.idx_nodup] at hj
        exact Option.noConfusion hj
      · rw [jsGet_jsDelete_ne s.index k k2 hk2] at hj
        have hjk := hw.keys_of_get k2 j hj
        have hjlt := hw.idx_lt s k2 j hj
        have hji : j ≠ i := by
          intro he
          rw [he, hik] at hjk
          exact hk2 (by simpa using hjk.symm)
        rw [getElem?_dropLast_of_lt s.keys j (by omega)]
        exact hjk
    · intro j k2 hj
      have hjlt : j < s.keys.length - 1 := by
        rcases List.getElem?_eq_some.mp hj with ⟨hl, _⟩
        simpa using hl
      rw [getElem?_dropLast_of_lt s.keys j hjlt] at hj
      have := hw.get_of_keys j k2 hj
      have hk2 : k2 ≠ k := by
        intro he
        rw [he, h] at this
        have : i = j := by simpa using this
        omega
      rw [jsGet_jsDelete_ne s.index k k2 hk2]
      exact this
    · intro k2
      by_cases hk2 : k2 = k
      · subst hk2
        simp [arrGet, jsGet_jsDelete_self s.index k2 hw.idx_nodup, mUpdate]
      · simp only [mUpdate, if_neg hk2, arrGet,
          jsGet_jsDelete_ne s.index k k2 hk2]
        cases h2 : jsGet s.index k2 with
        | none => rfl
        | some j =>
            have hjk := hw.keys_of_get k2 j h2
            have hjlt := hw.idx_lt s k2 j h2
            have hji : j ≠ i := by
              intro he
              rw [he, hik] at hjk
              exact hk2 (by simpa using hjk.symm)
            exact getElem?_dropLast_of_lt s.values j (by omega)
    · simp only [arrSize]
      omega
  · -- swap the tail entry into the freed slot, then pop
    have hn1 : s.values.length - 1 < s.values.length := by omega
    have hkn1 : s.values.length - 1 < s.keys.length := by omega
    have hilt1 : i < s.values.length - 1 := by omega
    obtain ⟨tk, htk⟩ : ∃ tk, s.keys[s.values.length - 1]? = some tk := by
      cases hx : s.keys[s.values.length - 1]? with
      | some tk => exact ⟨tk, rfl⟩
      | none => rw [List.getElem?_eq_none_iff] at hx; omega
    obtain ⟨tv, htv⟩ : ∃ tv, s.values[s.values.length - 1]? = some tv := by
      cases hx : s.values[s.values.length - 1]? with
      | some tv => exact ⟨tv, rfl⟩
      | none => rw [List.getElem?_eq_none_iff] at hx; omega
    have htki : jsGet s.index tk = some (s.values.length - 1) :=
      hw.get_of_keys _ tk htk
    have htknk : tk ≠ k := by
      intro he
      rw [he, h] at htki
      have : i = s.values.length - 1 := by simpa using htki
      omega
    have hstate : arrDeleteCore s k i =
        ⟨jsSet (jsDelete s.index k) tk i,
         (s.keys.set i tk).dropLast,
         (s.values.set i tv).dropLast⟩ := by
      simp only [arrDeleteCore]
      rw [if_neg hit, htk, htv]
    rw [hstate]
    have hgetd_tk : jsGet (jsDelete s.index k) tk = some (s.values.length - 1) := by
      rw [jsGet_jsDelete_ne s.index k tk htknk]
      exact htki
    have hhas_tk : jsHas (jsDelete s.index k) tk = true := by
      simp [jsHas, hgetd_tk]
    have hidx2len : (jsSet (jsDelete s.index k) tk i).length = s.index.length - 1 := by
      rw [length_jsSet_of_has _ tk i hhas_tk]
      omega
    have hnd2 : (jsKeys (jsSet (jsDelete s.index k) tk i)).Nodup :=
      jsKeys_nodup_jsSet _ tk i hdnd
    -- index lookups in the new index
    have hidx2_tk : jsGet (jsSet (jsDelete s.index k) tk i) tk = some i :=
      jsGet_jsSet_self _ tk i
    have hidx2_k : jsGet (jsSet (jsDelete s.index k) tk i) k = none := by
      rw [jsGet_jsSet_ne _ tk k i (fun he => htknk he.symm)]
      exact jsGet_jsDelete_self s.index k hw.idx_nodup
    have hidx2_other : ∀ k2, k2 ≠ k → k2 ≠ tk →
        jsGet (jsSet (jsDelete s.index k) tk i) k2 = jsGet s.index k2 := by
      intro k2 hk2 htk2
      rw [jsGet_jsSet_ne _ tk k2 i htk2, jsGet_jsDelete_ne s.index k k2 hk2]
    -- array reads in the new arrays
    have hkeys2_at : ∀ j, j < s.values.length - 1 → j ≠ i →
        ((s.keys.set i tk).dropLast)[j]? = s.keys[j]? := by
      intro j hjl hji
      rw [getElem?_dropLast_of_lt _ j (by simp; omega)]
      exact List.getElem?_set_ne (fun he => hji he.symm)
    have hkeys2_i : ((s.keys.set i tk).dropLast)[i]? = some tk := by
      rw [getElem?_dropLast_of_lt _ i (by simp; omega)]
      exact List.getElem?_set_eq_of_lt tk (by omega)
    have hvals2_at : ∀ j, j < s.values.length - 1 → j ≠ i →
        ((s.values.set i tv).dropLast)[j]? = s.values[j]? := by
      intro j hjl hji
      rw [getElem?_dropLast_of_lt _ j (by simp; omega)]
      exact List.getElem?_set_ne (fun he => hji he.symm)
    have hvals2_i : ((s.values.set i tv).dropLast)[i]? = some tv := by
      rw [getElem?_dropLast_of_lt _ i (by simp; omega)]
      exact List.getElem?_set_eq_of_lt tv (by omega)
    refine ⟨⟨?_, ?_, hnd2, ?_, ?_⟩, ?_, ?_⟩
    · rw [hidx2len]
      simp only [List.length_dropLast, List.length_set]
      omega
    · simp [hkv]
    · intro k2 j hj
      by_cases htk2 : k2 = tk
      · subst htk2
        rw [hidx2_tk] at hj
        have : j = i := by simpa using hj.symm
        subst this
        exact hkeys2_i
      · by_cases hk2 : k2 = k
        · subst hk2
          rw [hidx2_k] at hj
          exact Option.noConfusion hj
        · rw [hidx2_other k2 hk2 htk2] at hj
          have hjk := hw.keys_of_get k2 j hj
          have hjlt := hw.idx_lt s k2 j hj
          have hji : j ≠ i := by
            intro he
            rw [he, hik] at hjk
            exact hk2 (by simpa using hjk.symm)
          have hjt : j ≠ s.values.length - 1 := by
            intro he
            rw [he, htk] at hjk
            exact htk2 (by simpa using hjk.symm)
          rw [hkeys2_at j (by omega) hji]
          exact hjk
    · intro j k2 hj
      have hjlt : j < s.keys.length - 1 := by
        rcases List.getElem?_eq_some.mp hj with ⟨hl, _⟩
        simpa using hl
      by_cases hji : j = i
      · subst hji
        rw [hkeys2_i] at hj
        have : k2 = tk := by simpa using hj.symm
        subst this
        exact hidx2_tk
      · rw [hkeys2_at j (by omega) hji] at hj
        have := hw.get_of_keys j k2 hj
        have hk2 : k2 ≠ k := by
          intro he
          rw [he, h] at this
          have : i = j := by simpa using this
          omega
        have htk2 : k2 ≠ tk := by
          intro he
          rw [he, htki] at this
          have : s.values.length - 1 = j := by simpa using this
          omega
        rw [hidx2_other k2 hk2 htk2]
        exact this
    · intro k2
      by_cases hk2 : k2 = k
      · subst hk2
        simp [arrGet, hidx2_k, mUpdate]
      · simp only [mUpdate, if_neg hk2]
        by_cases htk2 : k2 = tk
        · subst htk2
          simp only [arrGet, hidx2_tk, htki, hvals2_i, htv]
        · simp only [arrGet, hidx2_other k2 hk2 htk2]
          cases h2 : jsGet s.index k2 with
          | none => rfl
          | some j =>
              have hjk := hw.keys_of_get k2 j h2
              have hjlt := hw.idx_lt s k2 j h2
              have hji : j ≠ i := by
                intro he
                rw [he, hik] at hjk
                exact hk2 (by simpa using hjk.symm)
              have hjt : j ≠ s.values.length - 1 := by
                intro he
                rw [he, htk] at hjk
                exact htk2 (by simpa using hjk.symm)
              exact hvals2_at j (by omega) hji
    · simp only [arrSize, hidx2len]

theorem arrDelete_step (s : AState K V) (hw : AWF s) (k : K) (value : JSOpt V) :
    AWF (arrDelete s k value).2 ∧
    ∀ k2, arrGet (arrDelete s k value).2 k2 =
      modelApply (arrGet s) (AOp.del k value) k2 := by
  cases h : jsGet s.index k with
  | none =>
      have hg : arrGet s k = none := arrGet_absent s k h
      cases value with
      | none =>
          simp only [arrDelete, h]
          refine ⟨hw, fun k2 => ?_⟩
          simp only [modelApply, mUpdate]
          by_cases hk2 : k2 = k
          · subst hk2; simp [hg]
          · simp [hk2]
      | some ev =>
          simp only [arrDelete, h]
          refine ⟨hw, fun k2 => ?_⟩
          simp only [modelApply, hg]
          rw [if_neg (by simp)]
  | some i =>
      have hgv : arrGet s k = s.values[i]? := arrGet_present s k i h
      cases value with
      | none =>
          have hst : (arrDelete s k none).2 = arrDeleteCore s k i := by
            simp [arrDelete, h]
          rw [hst]
          obtain ⟨hwf, hmod, _⟩ := arrDeleteCore_step s hw k i h
          exact ⟨hwf, fun k2 => by rw [hmod k2]; rfl⟩
      | some ev =>
          by_cases hev : s.values[i]? = some ev
          · have hst : (arrDelete s k (some ev)).2 = arrDeleteCore s k i := by
              simp [arrDelete, h, hev]
            rw [hst]
            obtain ⟨hwf, hmod, _⟩ := arrDeleteCore_step s hw k i h
            refine ⟨hwf, fun k2 => ?_⟩
            rw [hmod k2]
            simp only [modelApply, hgv, hev]
            simp
          · have hst : (arrDelete s k (some ev)).2 = s := by
              simp [arrDelete, h, hev]
            rw [hst]
            refine ⟨hw, fun k2 => ?_⟩
            simp only [modelApply, hgv]
            rw [if_neg hev]

theorem arrPut_snd (s : AState K V) (k : K) (v : JSVal V) :
    (arrPut s k v).2 = arrSet s k v := by
  cases h : jsGet s.index k <;> simp [arrPut, arrSet, h]

theorem arrCompute_eq (s : AState K V) (k : K) (fn : K → JSOpt V → JSOpt V) :
    arrCompute s k fn =
      match fn k (arrGet s k) with
      | none => (none, (arrDelete s k none).2)
      | some nv => (some nv, arrSet s k nv) := by
  cases h : jsGet s.index k <;> simp [arrCompute, arrGet, h]

theorem arrCompute_step (s : AState K V) (hw : AWF s) (k : K)
    (fn : K → JSOpt V → JSOpt V) :
    AWF (arrCompute s k fn).2 ∧
    ∀ k2, arrGet (arrCompute s k fn).2 k2 =
      modelApply (arrGet s) (AOp.compute k fn) k2 := by
  rw [arrCompute_eq]
  cases hr : fn k (arrGet s k) with
  | none =>
      obtain ⟨hwf, hmod⟩ := arrDelete_step s hw k none
      exact ⟨hwf, fun k2 => by rw [hmod k2]; simp [modelApply, hr]⟩
  | some nv =>
      obtain ⟨hwf, hmod⟩ := arrSet_step s hw k nv
      exact ⟨hwf, fun k2 => by rw [hmod k2]; simp [modelApply, hr]⟩

theorem arrComputeIfAbsent_step (s : AState K V) (hw : AWF s) (k : K)
    (fn : K → JSVal V) :
    AWF (arrComputeIfAbsent s k fn).2 ∧
    ∀ k2, arrGet (arrComputeIfAbsent s k fn).2 k2 =
      modelApply (arrGet s) (AOp.computeIfAbsent k fn) k2 := by
  cases h : jsGet s.index k with
  | none =>
      have hg : arrGet s k = none := arrGet_absent s k h
      have hst : (arrComputeIfAbsent s k fn).2 = arrSet s k (fn k) := by
        simp [arrComputeIfAbsent, h]
      rw [hst]
      obtain ⟨hwf, hmod⟩ := arrSet_step s hw k (fn k)
      exact ⟨hwf, fun k2 => by rw [hmod k2]; simp [modelApply, hg]⟩
  | some i =>
      rcases hw.values_at s k i h with ⟨ov, hov⟩
      have hg : arrGet s k = some ov := by rw [arrGet_present s k i h, hov]
      have hst : (arrComputeIfAbsent s k fn).2 = s := by
        simp [arrComputeIfAbsent, h]
      rw [hst]
      exact ⟨hw, fun k2 => by simp [modelApply, hg]⟩

theorem arrComputeIfPresent_step (s : AState K V) (hw : AWF s) (k : K)
    (fn : K → JSVal V → JSOpt V) :
    AWF (arrComputeIfPresent s k fn).2 ∧
    ∀ k2, arrGet (arrComputeIfPresent s k fn).2 k2 =
      modelApply (arrGet s) (AOp.computeIfPresent k fn) k2 := by
  cases h : jsGet s.index k with
  | none =>
      have hg : arrGet s k = none := arrGet_absent s k h
      have hst : (arrComputeIfPresent s k fn).2 = s := by
        simp [arrComputeIfPresent, h]
      rw [hst]
      exact ⟨hw, fun k2 => by simp [modelApply, hg]⟩
  | some i =>
      rcases hw.values_at s k i h with ⟨ov, hov⟩
      have hg : arrGet s k = some ov := by rw [arrGet_present s k i h, hov]
      cases hr : fn k ov with
      | none =>
          have hst : (arrComputeIfPresent s k fn).2 = (arrDelete s k none).2 := by
            simp [arrComputeIfPresent, h, hov, hr]
          rw [hst]
          obtain ⟨hwf, hmod⟩ := arrDelete_step s hw k none
          exact ⟨hwf, fun k2 => by rw [hmod k2]; simp [modelApply, hg, hr]⟩
      | some nv =>
          have hset : { s with values := s.values.set i nv } = arrSet s k nv := by
            simp [arrSet, h]
          have hst : (arrComputeIfPresent s k fn).2 = arrSet s k nv := by
            simp only [arrComputeIfPresent, h, hov, hr]
            exact hset
          rw [hst]
          obtain ⟨hwf, hmod⟩ := arrSet_step s hw k nv
          exact ⟨hwf, fun k2 => by rw [hmod k2]; simp [modelApply, hg, hr]⟩

theorem arrMerge_step (s : AState K V) (hw : AWF s) (k : K) (v : JSVal V)
    (fn : JSVal V → JSVal V → JSOpt V) :
    AWF (arrMerge s k v fn).2 ∧
    ∀ k2, arrGet (arrMerge s k v fn).2 k2 =
      modelApply (arrGet s) (AOp.merge k v fn) k2 := by
  have hnewv : (match jsGet s.index k with
      | some i =>
          match s.values[i]? with
          | some ov => fn ov v
          | none => some v
      | none => some v) =
      (match arrGet s k with
       | some ov => fn ov v
       | none => some v) := by
    cases h : jsGet s.index k with
    | none => simp [arrGet, h]
    | some i =>
        rcases hw.values_at s k i h with ⟨ov, hov⟩
        simp [arrGet, h, hov]
  have hme : arrMerge s k v fn =
      (match (match arrGet s k with
              | some ov => fn ov v
              | none => some v) with
       | none => (none, (arrDelete s k none).2)
       | some JSVal.null => (some JSVal.null, (arrDelete s k none).2)
       | some nv => (some nv, arrSet s k nv)) := by
    simp only [arrMerge]
    rw [hnewv]
  rw [hme]
  cases hr : (match arrGet s k with
              | some ov => fn ov v
              | none => some v) with
  | none =>
      obtain ⟨hwf, hmod⟩ := arrDelete_step s hw k none
      exact ⟨hwf, fun k2 => by rw [hmod k2]; simp [modelApply, hr]⟩
  | some nv =>
      cases nv with
      | null =>
          obtain ⟨hwf, hmod⟩ := arrDelete_step s hw k none
          exact ⟨hwf, fun k2 => by rw [hmod k2]; simp [modelApply, hr]⟩
      | val w =>
          obtain ⟨hwf, hmod⟩ := arrSet_step s hw k (JSVal.val w)
          exact ⟨hwf, fun k2 => by rw [hmod k2]; simp [modelApply, hr]⟩

theorem arrSetIfAbsent_step (s : AState K V) (hw : AWF s) (k : K) (v : JSVal V) :
    AWF (arrSetIfAbsent s k v).2 ∧
    ∀ k2, arrGet (arrSetIfAbsent s k v).2 k2 =
      modelApply (arrGet s) (AOp.setIfAbsent k v) k2 := by
  cases h : jsGet s.index k with
  | none =>
      have hg : arrGet s k = none := arrGet_absent s k h
      have hst : (arrSetIfAbsent s k v).2 = arrSet s k v := by
        simp [arrSetIfAbsent, h]
      rw [hst]
      obtain ⟨hwf, hmod⟩ := arrSet_step s hw k v
      exact ⟨hwf, fun k2 => by rw [hmod k2]; simp [modelApply, hg]⟩
  | some i =>
      rcases hw.values_at s k i h with ⟨ov, hov⟩
      have hg : arrGet s k = some ov := by rw [arrGet_present s k i h, hov]
      have hst : (arrSetIfAbsent s k v).2 = s := by
        simp [arrSetIfAbsent, h]
      rw [hst]
      exact ⟨hw, fun k2 => by simp [modelApply, hg]⟩

theorem arrReplace2_step (s : AState K V) (hw : AWF s) (k : K) (v : JSVal V) :
    AWF (arrReplace2 s k v).2 ∧
    ∀ k2, arrGet (arrReplace2 s k v).2 k2 =
      modelApply (arrGet s) (AOp.replace2 k v) k2 := by
  cases h : jsGet s.index k with
  | none =>
      have hg : arrGet s k = none := arrGet_absent s k h
      have hst : (arrReplace2 s k v).2 = s := by simp [arrReplace2, h]
      rw [hst]
      exact ⟨hw, fun k2 => by simp [modelApply, hg]⟩
  | some i =>
      rcases hw.values_at s k i h with ⟨ov, hov⟩
      have hg : arrGet s k = some ov := by rw [arrGet_present s k i h, hov]
      have hst : (arrReplace2 s k v).2 = arrSet s k v := by
        simp only [arrReplace2, h]
        simp [arrSet, h]
      rw [hst]
      obtain ⟨hwf, hmod⟩ := arrSet_step s hw k v
      exact ⟨hwf, fun k2 => by rw [hmod k2]; simp [modelApply, hg]⟩

theorem arrReplace3_step (s : AState K V) (hw : AWF s) (k : K)
    (old v : JSVal V) :
    AWF (arrReplace3 s k old v).2 ∧
    ∀ k2, arrGet (arrReplace3 s k old v).2 k2 =
      modelApply (arrGet s) (AOp.replace3 k old v) k2 := by
  cases h : jsGet s.index k with
  | none =>
      have hg : arrGet s k = none := arrGet_absent s k h
      have hst : (arrReplace3 s k old v).2 = s := by simp [arrReplace3, h]
      rw [hst]
      refine ⟨hw, fun k2 => ?_⟩
      simp only [modelApply, hg]
      rw [if_neg (by simp)]
  | some i =>
      rcases hw.values_at s k i h with ⟨ov, hov⟩
      have hg : arrGet s k = some ov := by rw [arrGet_present s k i h, hov]
      by_cases heq : s.values[i]? = some old
      · have hovold : ov = old := by
          rw [hov] at heq
          simpa using heq
        have hst : (arrReplace3 s k old v).2 = arrSet s k v := by
          simp only [arrReplace3, h, if_pos heq]
          simp [arrSet, h]
        rw [hst]
        obtain ⟨hwf, hmod⟩ := arrSet_step s hw k v
        refine ⟨hwf, fun k2 => ?_⟩
        rw [hmod k2]
        simp [modelApply, hg, hovold]
      · have hst : (arrReplace3 s k old v).2 = s := by
          simp [arrReplace3, h, heq]
        rw [hst]
        refine ⟨hw, fun k2 => ?_⟩
        have hne : arrGet s k ≠ some old := by
          rw [hg]
          intro he
          rw [hov] at heq
          exact heq (by simpa using he)
        simp only [modelApply]
        rw [if_neg hne]

theorem arrSetAll_step (entries : List (K × JSVal V)) (override : Bool) :
    ∀ s : AState K V, AWF s →
      AWF (arrSetAll s entries override) ∧
      (fun k2 => arrGet (arrSetAll s entries override) k2) =
        modelApply (fun k2 => arrGet s k2) (AOp.setAll entries override) := by
  induction entries with
  | nil => exact fun s hw => ⟨hw, rfl⟩
  | cons e rest ih =>
      intro s hw
      have hcond : (override || !arrHas s e.1) =
          (override || !(arrGet s e.1).isSome) := by
        rw [hw.has_iff_get]
      by_cases hc : (override || !(arrGet s e.1).isSome) = true
      · have hstep : arrSetAll s (e :: rest) override =
            arrSetAll (arrSet s e.1 e.2) rest override := by
          simp only [arrSetAll, List.foldl_cons, hcond, hc, if_pos]
        obtain ⟨hw1, hmod1⟩ := arrSet_step s hw e.1 e.2
        have hfun : (fun k2 => arrGet (arrSet s e.1 e.2) k2) =
            mUpdate (fun k2 => arrGet s k2) e.1 (some e.2) := funext hmod1
        obtain ⟨hwF, hmodF⟩ := ih (arrSet s e.1 e.2) hw1
        refine ⟨hstep ▸ hwF, ?_⟩
        rw [hstep, hmodF, hfun]
        simp only [modelApply, List.foldl_cons, hc, if_pos]
      · have hcf : (override || !(arrGet s e.1).isSome) = false :=
          Bool.eq_false_iff.mpr hc
        have hstep : arrSetAll s (e :: rest) override =
            arrSetAll s rest override := by
          simp only [arrSetAll, List.foldl_cons, hcond, hcf]
          simp
        obtain ⟨hwF, hmodF⟩ := ih s hw
        refine ⟨hstep ▸ hwF, ?_⟩
        rw [hstep, hmodF]
        simp only [modelApply, List.foldl_cons, hcf]
        simp

theorem sweepAccum_keys (es : List (K × JSVal V)) :
    ∀ r : AState K V, AWF r → (es.map Prod.fst).Nodup →
      (∀ e ∈ es, arrHas r e.1 = false) →
      (es.foldl (fun r2 e => arrSet r2 e.1 e.2) r).keys =
        r.keys ++ es.map Prod.fst := by
  induction es with
  | nil => intro r _ _ _; simp
  | cons e rest ih =>
      intro r hw hnd hnh
      have hh : arrHas r e.1 = false := hnh e (List.mem_cons_self e rest)
      have habs : jsGet r.index e.1 = none := by
        cases hx : jsGet r.index e.1 with
        | none => rfl
        | some i => simp [arrHas, jsHas, hx] at hh
      have hset : arrSet r e.1 e.2 =
          ⟨jsSet r.index e.1 r.values.length, r.keys ++ [e.1],
           r.values ++ [e.2]⟩ := by
        simp [arrSet, habs]
      obtain ⟨hwf1, _⟩ := arrSet_step r hw e.1 e.2
      simp only [List.map_cons, List.nodup_cons] at hnd
      have hnh2 : ∀ f ∈ rest, arrHas (arrSet r e.1 e.2) f.1 = false := by
        intro f hf
        have hfk : f.1 ≠ e.1 := by
          intro hfe
          exact hnd.1 (hfe ▸ List.mem_map_of_mem Prod.fst hf)
        have hre := hnh f (List.mem_cons_of_mem e hf)
        rw [hset]
        simp only [arrHas, jsHas] at hre ⊢
        rw [jsGet_jsSet_ne r.index e.1 f.1 r.values.length hfk]
        exact hre
      have := ih (arrSet r e.1 e.2) hwf1 hnd.2 hnh2
      rw [List.foldl_cons, this, hset]
      simp

theorem deleteFold_step (L : List K) :
    ∀ s : AState K V, AWF s →
      AWF (L.foldl (fun s2 k => (arrDelete s2 k none).2) s) ∧
      ∀ k2, arrGet (L.foldl (fun s2 k => (arrDelete s2 k none).2) s) k2 =
        if k2 ∈ L then none else arrGet s k2 := by
  induction L with
  | nil => intro s hw; exact ⟨hw, fun k2 => by simp⟩
  | cons l rest ih =>
      intro s hw
      obtain ⟨hw1, hmod1⟩ := arrDelete_step s hw l none
      obtain ⟨hwF, hmodF⟩ := ih _ hw1
      refine ⟨hwF, fun k2 => ?_⟩
      rw [List.foldl_cons, hmodF k2]
      by_cases hm : k2 ∈ rest
      · simp [hm]
      · simp only [if_neg hm]
        rw [hmod1 k2]
        simp only [modelApply, mUpdate]
        by_cases hk : k2 = l
        · subst hk; simp
        · simp [hk, hm]

theorem mem_hitKeys (s : AState K V) (hw : AWF s) (fn : JSVal V → K → Bool)
    (k2 : K) :
    (k2 ∈ ((s.keys.zip s.values).filter (fun e => fn e.2 e.1)).map Prod.fst) ↔
    (∃ v, arrGet s k2 = some v ∧ fn v k2 = true) := by
  constructor
  · intro hmem
    rcases List.mem_map.mp hmem with ⟨p, hp, hpk⟩
    have hpf := List.mem_filter.mp hp
    rcases (List.mem_iff_getElem?).mp hpf.1 with ⟨i, hzip⟩
    have hz := List.getElem?_zip_eq_some.mp hzip
    have hkq : s.keys[i]? = some k2 := hpk ▸ hz.1
    have hidx := hw.get_of_keys i k2 hkq
    refine ⟨p.2, ?_, ?_⟩
    · rw [arrGet_present s k2 i hidx, hz.2]
    · have := hpf.2
      simpa [hpk] using this
  · rintro ⟨v, hv, hfn⟩
    cases hidx : jsGet s.index k2 with
    | none => rw [arrGet_absent s k2 hidx] at hv; exact Option.noConfusion hv
    | some i =>
        rw [arrGet_present s k2 i hidx] at hv
        have hkq := hw.keys_of_get k2 i hidx
        have hzip : (s.keys.zip s.values)[i]? = some (k2, v) :=
          List.getElem?_zip_eq_some.mpr ⟨hkq, hv⟩
        have hmem : (k2, v) ∈ s.keys.zip s.values :=
          (List.mem_iff_getElem?).mpr ⟨i, hzip⟩
        exact List.mem_map.mpr
          ⟨(k2, v), List.mem_filter.mpr ⟨hmem, by simpa using hfn⟩, rfl⟩

theorem hitKeys_nodup (s : AState K V) (hw : AWF s) (fn : JSVal V → K → Bool) :
    (((s.keys.zip s.values).filter (fun e => fn e.2 e.1)).map Prod.fst).Nodup := by
  have h1 := (List.filter_sublist (l := s.keys.zip s.values)
    (p := fun e => fn e.2 e.1)).map Prod.fst
  rw [List.map_fst_zip s.keys s.values (le_of_eq hw.len_kv)] at h1
  exact h1.nodup (hw.keys_nodup)

theorem arrHas_empty (k : K) : arrHas (arrEmpty : AState K V) k = false := rfl

theorem arrSweep_snd (s : AState K V) (hw : AWF s) (fn : JSVal V → K → Bool) :
    (arrSweep s fn).2 =
      (((s.keys.zip s.values).filter (fun e => fn e.2 e.1)).map
        Prod.fst).foldl (fun s2 k => (arrDelete s2 k none).2) s := by
  have hkeys := sweepAccum_keys
    ((s.keys.zip s.values).filter (fun e => fn e.2 e.1)) arrEmpty AWF.empty
    (hitKeys_nodup s hw fn) (fun e _ => arrHas_empty e.1)
  simp only [arrSweep]
  rw [hkeys]
  simp [arrEmpty]

theorem arrSweep_step (s : AState K V) (hw : AWF s) (fn : JSVal V → K → Bool) :
    AWF (arrSweep s fn).2 ∧
    ∀ k2, arrGet (arrSweep s fn).2 k2 =
      modelApply (arrGet s) (AOp.sweep fn) k2 := by
  rw [arrSweep_snd s hw fn]
  obtain ⟨hwF, hmodF⟩ := deleteFold_step
    (((s.keys.zip s.values).filter (fun e => fn e.2 e.1)).map Prod.fst) s hw
  refine ⟨hwF, fun k2 => ?_⟩
  rw [hmodF k2]
  simp only [modelApply]
  cases hv : arrGet s k2 with
  | none =>
      have : ¬ (k2 ∈ ((s.keys.zip s.values).filter
          (fun e => fn e.2 e.1)).map Prod.fst) := by
        intro hmem
        rcases (mem_hitKeys s hw fn k2).mp hmem with ⟨v, hv2, _⟩
        rw [hv] at hv2
        exact Option.noConfusion hv2
      rw [if_neg this]
  | some v =>
      cases hfn : fn v k2 with
      | true =>
          have : k2 ∈ ((s.keys.zip s.values).filter
              (fun e => fn e.2 e.1)).map Prod.fst :=
            (mem_hitKeys s hw fn k2).mpr ⟨v, hv, hfn⟩
          rw [if_pos this]
          simp [hfn]
      | false =>
          have : ¬ (k2 ∈ ((s.keys.zip s.values).filter
              (fun e => fn e.2 e.1)).map Prod.fst) := by
            intro hmem
            rcases (mem_hitKeys s hw fn k2).mp hmem with ⟨v2, hv2, hfn2⟩
            rw [hv] at hv2
            have : v2 = v := by simpa using hv2.symm
            rw [this] at hfn2
            rw [hfn] at hfn2
            exact Bool.noConfusion hfn2
          rw [if_neg this]
          simp [hfn]

theorem aApply_step (s : AState K V) (hw : AWF s) (op : AOp K V) :
    AWF (aApply s op) ∧
    ∀ k2, arrGet (aApply s op) k2 = modelApply (arrGet s) op k2 := by
  cases op with
  | set k v => exact arrSet_step s hw k v
  | put k v =>
      have h := arrSet_step s hw k v
      rw [show aApply s (AOp.put k v) = arrSet s k v from arrPut_snd s k v]
      exact h
  | del k value => exact arrDelete_step s hw k value
  | compute k fn => exact arrCompute_step s hw k fn
  | computeIfAbsent k fn => exact arrComputeIfAbsent_step s hw k fn
  | computeIfPresent k fn => exact arrComputeIfPresent_step s hw k fn
  | merge k v fn => exact arrMerge_step s hw k v fn
  | setIfAbsent k v => exact arrSetIfAbsent_step s hw k v
  | replace2 k v => exact arrReplace2_step s hw k v
  | replace3 k old v => exact arrReplace3_step s hw k old v
  | setAll entries override =>
      obtain ⟨hwF, hmodF⟩ := arrSetAll_step entries override s hw
      exact ⟨hwF, fun k2 => congrFun hmodF k2⟩
  | sweep fn => exact arrSweep_step s hw fn
  | clear =>
      refine ⟨AWF.empty, fun k2 => ?_⟩
      simp [aApply, arrClear, arrGet, jsGet, modelApply]

theorem aRun_general (ops : List (AOp K V)) :
    ∀ s : AState K V, AWF s →
      AWF (ops.foldl aApply s) ∧
      ∀ k, arrGet (ops.foldl aApply s) k =
        ops.foldl modelApply (fun k2 => arrGet s k2) k := by
  induction ops with
  | nil => intro s hw; exact ⟨hw, fun k => rfl⟩
  | cons op rest ih =>
      intro s hw
      obtain ⟨hw1, hmod1⟩ := aApply_step s hw op
      obtain ⟨hwF, hmodF⟩ := ih (aApply s op) hw1
      refine ⟨hwF, fun k => ?_⟩
      rw [List.foldl_cons, hmodF k, List.foldl_cons]
      have : (fun k2 => arrGet (aApply s op) k2) =
          modelApply (fun k2 => arrGet s k2) op := funext hmod1
      rw [this]

end ArrayMapInv

/-! ## Claim C1 -/

/-- C1: after any finite sequence of mutating `ArrayMap` operations (`set`,
`put`, `delete` with one or two arguments, `compute`, `computeIfAbsent`,
`computeIfPresent`, `merge`, `setIfAbsent`, `replace` in both arities,
`sweep`, `clear`, `setAll`), the internal state satisfies
`index.size == keys.length == values.length`; for every key `k` in the
index, `keys[index[k]] == k`; and `values[index[k]]` (i.e. `get k`) is the
value most recently stored for `k`, as given by the reference semantics of
the operation sequence (`modelRun`). -/
theorem C1_arrayMap_invariant {K V : Type} [DecidableEq K] [DecidableEq V]
    (ops : List (AOp K V)) :
    arrSize (aRun ops) = (aRun ops).keys.length ∧
    (aRun ops).keys.length = (aRun ops).values.length ∧
    (∀ k i, jsGet (aRun ops).index k = some i → (aRun ops).keys[i]? = some k) ∧
    (∀ k, arrGet (aRun ops) k = modelRun ops k) := by
  obtain ⟨hwf, hmod⟩ := aRun_general ops arrEmpty AWF.empty
  exact ⟨hwf.len_idx, hwf.len_kv, hwf.keys_of_get, fun k => hmod k⟩

section ArrayMapDelete

variable {K V : Type} [DecidableEq K] [DecidableEq V]

theorem arrDeleteCore_shape (s : AState K V) (hw : AWF s) (k : K) (i : Nat)
    (h : jsGet s.index k = some i) :
    jsGet (arrDeleteCore s k i).index k = none ∧
    (arrDeleteCore s k i).keys.length = s.keys.length - 1 ∧
    (i ≠ s.values.length - 1 →
      ∀ tk, s.keys[s.values.length - 1]? = some tk →
        jsGet (arrDeleteCore s k i).index tk = some i ∧
        (arrDeleteCore s k i).keys[i]? = some tk ∧
        (arrDeleteCore s k i).values[i]? = s.values[s.values.length - 1]?) := by
  obtain ⟨hwf, hmod, hsize⟩ := arrDeleteCore_step s hw k i h
  have hilt := hw.idx_lt s k i h
  have hkv := hw.len_kv
  refine ⟨?_, ?_, ?_⟩
  · cases hx : jsGet (arrDeleteCore s k i).index k with
    | none => rfl
    | some j =>
        rcases hwf.values_at (arrDeleteCore s k i) k j hx with ⟨ov, hov⟩
        have h1 : arrGet (arrDeleteCore s k i) k = some ov := by
          rw [arrGet_present _ k j hx, hov]
        rw [hmod k] at h1
        simp [mUpdate] at h1
  · have h1 := hwf.len_idx
    have h2 := hw.len_idx
    simp only [arrSize] at hsize
    omega
  · intro hit tk htk
    have hn1 : s.values.length - 1 < s.values.length := by omega
    obtain ⟨tv, htv⟩ : ∃ tv, s.values[s.values.length - 1]? = some tv := by
      cases hx : s.values[s.values.length - 1]? with
      | some tv => exact ⟨tv, rfl⟩
      | none => rw [List.getElem?_eq_none_iff] at hx; omega
    have hstate : arrDeleteCore s k i =
        ⟨jsSet (jsDelete s.index k) tk i,
         (s.keys.set i tk).dropLast,
         (s.values.set i tv).dropLast⟩ := by
      simp only [arrDeleteCore]
      rw [if_neg hit, htk, htv]
    rw [hstate, htv]
    have hilt1 : i < s.values.length - 1 := by omega
    refine ⟨jsGet_jsSet_self _ tk i, ?_, ?_⟩
    · rw [getElem?_dropLast_of_lt _ i (by simp; omega)]
      exact List.getElem?_set_eq_of_lt tk (by omega)
    · rw [getElem?_dropLast_of_lt _ i (by simp; omega)]
      exact List.getElem?_set_eq_of_lt tv (by omega)

end ArrayMapDelete

/-- C3: `ArrayMap` removal of a key `k` stored at position `p` returns
`true` and produces exactly the swap-and-truncate state: `k`'s index entry
is removed and both arrays lose their last slot; when `p` is not the final
position, the final key/value pair is moved into position `p` and the moved
key's index entry is set to `p`.  Consequently the structural invariant
still holds, every remaining live entry appears exactly once (`keys` stays
duplicate-free), `k` is gone, all other keys keep their values, and the
size drops by one. -/
theorem C3_arrayMap_swap_delete {K V : Type} [DecidableEq K] [DecidableEq V]
    (s : AState K V) (hw : AWF s) (k : K) (p : Nat)
    (h : jsGet s.index k = some p) :
    (arrDelete s k none).1 = true ∧
    AWF (arrDelete s k none).2 ∧
    jsGet (arrDelete s k none).2.index k = none ∧
    (arrDelete s k none).2.keys.length = s.keys.length - 1 ∧
    (p ≠ s.values.length - 1 →
      ∀ tk, s.keys[s.values.length - 1]? = some tk →
        jsGet (arrDelete s k none).2.index tk = some p ∧
        (arrDelete s k none).2.keys[p]? = some tk ∧
        (arrDelete s k none).2.values[p]? = s.values[s.values.length - 1]?) ∧
    (arrDelete s k none).2.keys.Nodup ∧
    arrGet (arrDelete s k none).2 k = none ∧
    (∀ k2, k2 ≠ k → arrGet (arrDelete s k none).2 k2 = arrGet s k2) ∧
    arrSize (arrDelete s k none).2 = arrSize s - 1 := by
  have hsnd : (arrDelete s k none).2 = arrDeleteCore s k p := by
    simp [arrDelete, h]
  have hfst : (arrDelete s k none).1 = true := by
    simp [arrDelete, h]
  obtain ⟨hwf, hmod, hsize⟩ := arrDeleteCore_step s hw k p h
  obtain ⟨hidxk, hklen, hshape⟩ := arrDeleteCore_shape s hw k p h
  rw [hsnd, hfst]
  refine ⟨rfl, hwf, hidxk, hklen, hshape, hwf.keys_nodup, ?_, ?_, hsize⟩
  · rw [hmod k]; simp [mUpdate]
  · intro k2 hk2
    rw [hmod k2]
    simp [mUpdate, hk2]

/-! ## Claim C6: sweep -/

section Sweep

variable {K V : Type} [DecidableEq K] [DecidableEq V]

theorem filter_not_length {α : Type} (p : α → Bool) (l : List α) :
    (l.filter (fun e => !(p e))).length + (l.filter p).length = l.length := by
  induction l with
  | nil => rfl
  | cons e rest ih =>
      cases hp : p e <;> simp [List.filter_cons, hp] <;> omega

theorem extSweep_spec (fn : JSVal V → K → Bool) (m : HMap K V) :
    (extSweep fn m).1 = (m.filter (fun e => fn e.2 e.1)).map Prod.snd ∧
    (extSweep fn m).2 = m.filter (fun e => !(fn e.2 e.1)) := by
  induction m with
  | nil => exact ⟨rfl, rfl⟩
  | cons e rest ih =>
      cases hf : fn e.2 e.1 with
      | true => simp [extSweep, hf, ih.1, ih.2, List.filter_cons]
      | false => simp [extSweep, hf, ih.1, ih.2, List.filter_cons]

theorem length_jsDelete_le (m : List (K × V)) (k : K) :
    (jsDelete m k).length ≤ m.length := by
  induction m with
  | nil => simp [jsDelete]
  | cons e rest ih =>
      by_cases he : e.1 = k <;> simp [jsDelete, he] <;> omega

theorem sweepAccum_arrays (es : List (K × JSVal V)) :
    ∀ r : AState K V, AWF r → (es.map Prod.fst).Nodup →
      (∀ e ∈ es, arrHas r e.1 = false) →
      (es.foldl (fun r2 e => arrSet r2 e.1 e.2) r).keys =
        r.keys ++ es.map Prod.fst ∧
      (es.foldl (fun r2 e => arrSet r2 e.1 e.2) r).values =
        r.values ++ es.map Prod.snd := by
  induction es with
  | nil => intro r _ _ _; simp
  | cons e rest ih =>
      intro r hw hnd hnh
      have hh : arrHas r e.1 = false := hnh e (List.mem_cons_self e rest)
      have habs : jsGet r.index e.1 = none := by
        cases hx : jsGet r.index e.1 with
        | none => rfl
        | some i => simp [arrHas, jsHas, hx] at hh
      have hset : arrSet r e.1 e.2 =
          ⟨jsSet r.index e.1 r.values.length, r.keys ++ [e.1],
           r.values ++ [e.2]⟩ := by
        simp [arrSet, habs]
      obtain ⟨hwf1, _⟩ := arrSet_step r hw e.1 e.2
      simp only [List.map_cons, List.nodup_cons] at hnd
      have hnh2 : ∀ f ∈ rest, arrHas (arrSet r e.1 e.2) f.1 = false := by
        intro f hf
        have hfk : f.1 ≠ e.1 := by
          intro hfe
          exact hnd.1 (hfe ▸ List.mem_map_of_mem Prod.fst hf)
        have hre := hnh f (List.mem_cons_of_mem e hf)
        rw [hset]
        simp only [arrHas, jsHas] at hre ⊢
        rw [jsGet_jsSet_ne r.index e.1 f.1 r.values.length hfk]
        exact hre
      obtain ⟨ihk, ihv⟩ := ih (arrSet r e.1 e.2) hwf1 hnd.2 hnh2
      constructor
      · rw [List.foldl_cons, ihk, hset]; simp
      · rw [List.foldl_cons, ihv, hset]; simp

theorem deleteFold_size (L : List K) :
    ∀ s : AState K V, AWF s → L.Nodup →
      (∀ k ∈ L, (arrGet s k).isSome = true) →
      arrSize (L.foldl (fun s2 k => (arrDelete s2 k none).2) s) =
        arrSize s - L.length := by
  induction L with
  | nil => intro s _ _ _; simp
  | cons l rest ih =>
      intro s hw hnd hpres
      have hls : (arrGet s l).isSome = true := hpres l (List.mem_cons_self l rest)
      obtain ⟨i, hidx⟩ : ∃ i, jsGet s.index l = some i := by
        cases hx : jsGet s.index l with
        | some i => exact ⟨i, rfl⟩
        | none => rw [arrGet_absent s l hx] at hls; simp at hls
      have hsnd : (arrDelete s l none).2 = arrDeleteCore s l i := by
        simp [arrDelete, hidx]
      obtain ⟨hwf1, hmod1, hsize1⟩ := arrDeleteCore_step s hw l i hidx
      simp only [List.nodup_cons] at hnd
      have hpres2 : ∀ k ∈ rest, (arrGet (arrDelete s l none).2 k).isSome = true := by
        intro k hk
        have hkl : k ≠ l := fun he => hnd.1 (he ▸ hk)
        rw [hsnd, hmod1 k]
        simp only [mUpdate, if_neg hkl]
        exact hpres k (List.mem_cons_of_mem l hk)
      have hge1 : 1 ≤ arrSize s := by
        have := mem_jsKeys_of_jsGet s.index l i hidx
        have : s.index ≠ [] := by
          intro he
          rw [he] at this
          simp [jsKeys] at this
        simp only [arrSize]
        cases hsx : s.index with
        | nil => exact absurd hsx this
        | cons a b => simp
      have := ih (arrDelete s l none).2 (hsnd ▸ hwf1) hnd.2 hpres2
      rw [List.foldl_cons, this, hsnd, hsize1]
      simp only [List.length_cons]
      omega

/-- C6: `sweep(predicate)` removes exactly the entries whose (value, key)
satisfies the predicate at the start of the call, visits every entry
exactly once despite its own removals (the outcome is an in-order filter of
the initial entries), returns the removed values in the original traversal
order, and decreases the size by exactly the number of removed entries.
Stated for `ExtMap.sweep` (value list returned) and `ArrayMap.sweep`
(removed entries returned as a fresh `ArrayMap`). -/
theorem C6_sweep {K V : Type} [DecidableEq K] [DecidableEq V]
    (fn : JSVal V → K → Bool) :
    (∀ m : HMap K V,
      (extSweep fn m).1 = (m.filter (fun e => fn e.2 e.1)).map Prod.snd ∧
      (extSweep fn m).2 = m.filter (fun e => !(fn e.2 e.1)) ∧
      (extSweep fn m).2.length =
        m.length - (m.filter (fun e => fn e.2 e.1)).length) ∧
    (∀ s : AState K V, AWF s →
      (arrSweep s fn).1.keys =
        ((s.keys.zip s.values).filter (fun e => fn e.2 e.1)).map Prod.fst ∧
      (arrSweep s fn).1.values =
        ((s.keys.zip s.values).filter (fun e => fn e.2 e.1)).map Prod.snd ∧
      (∀ k v, arrGet s k = some v → fn v k = true →
        arrGet (arrSweep s fn).2 k = none) ∧
      (∀ k v, arrGet s k = some v → fn v k = false →
        arrGet (arrSweep s fn).2 k = some v) ∧
      arrSize (arrSweep s fn).2 =
        arrSize s -
          ((s.keys.zip s.values).filter (fun e => fn e.2 e.1)).length) := by
  constructor
  · intro m
    obtain ⟨h1, h2⟩ := extSweep_spec fn m
    refine ⟨h1, h2, ?_⟩
    rw [h2]
    have hpart := filter_not_length (fun e => fn e.2 e.1) m
    omega
  · intro s hw
    obtain ⟨hK, hV⟩ := sweepAccum_arrays
      ((s.keys.zip s.values).filter (fun e => fn e.2 e.1)) arrEmpty AWF.empty
      (hitKeys_nodup s hw fn) (fun e _ => arrHas_empty e.1)
    obtain ⟨hwF, hmodF⟩ := arrSweep_step s hw fn
    refine ⟨?_, ?_, ?_, ?_, ?_⟩
    · simpa [arrSweep, arrEmpty] using hK
    · simpa [arrSweep, arrEmpty] using hV
    · intro k v hv hfn
      rw [hmodF k]
      simp [modelApply, hv, hfn]
    · intro k v hv hfn
      rw [hmodF k]
      simp [modelApply, hv, hfn]
    · rw [arrSweep_snd s hw fn]
      have hsz := deleteFold_size
        (((s.keys.zip s.values).filter (fun e => fn e.2 e.1)).map Prod.fst) s hw
        (hitKeys_nodup s hw fn)
        (fun k hk => by
          rcases (mem_hitKeys s hw fn k).mp hk with ⟨v, hv, _⟩
          simp [hv])
      rw [hsz]
      simp

end Sweep

/-! ## Claims C2, C4, C5, C9: absence semantics of the conditional family -/

/-- C2 counterexample: with key `0` mapped to the nullish marker,
`HashMap.computeIfAbsent` does **not** invoke its mapping function and does
not store its result (the map is unchanged and the stored `null` is
returned), and `ExtMap.computeIfPresent` **does** invoke its function (the
function's result is stored) — both contrary to the claim that every
conditional operation treats a `null` value exactly like a missing key. -/
theorem C2_counterexample :
    hashComputeIfAbsent ([(0, JSVal.null)] : HMap Nat Nat) 0
        (fun _ => JSVal.val 5) = (JSVal.null, [(0, JSVal.null)]) ∧
    ([(0, JSVal.null)] : HMap Nat Nat) ≠ [(0, JSVal.val 5)] ∧
    extComputeIfPresent ([(0, JSVal.null)] : HMap Nat Nat) 0
        (fun _ _ => some (JSVal.val 7)) =
      (some (JSVal.val 7), [(0, JSVal.val 7)]) := by
  exact ⟨rfl, by decide, rfl⟩

/-- C2 (amended): it is `EnMap`'s conditional operations that decide
presence by the single nullish predicate: whenever `__isNullish(get(key))`
holds (key missing or mapped to `null`), `computeIfAbsent` invokes its
mapping function and stores the result, `computeIfPresent` does not invoke
its function and leaves the map unchanged, `merge` stores the given value
directly without invoking its function, and `setIfAbsent` stores the given
value.  (`HashMap.computeIfAbsent`/`setIfAbsent`/`computeIfPresent`/`merge`
and `ExtMap.computeIfPresent`/`merge` branch on `=== undefined` instead, so
they treat a stored `null` as present.) -/
theorem C2_amended {K V : Type} [DecidableEq K] [DecidableEq V]
    (m : HMap K V) (k : K) (h : isNullish (jsGet m k) = true)
    (fn1 : K → JSVal V) (v : JSVal V) (fnm : JSVal V → JSVal V → JSVal V) :
    enComputeIfAbsent m k fn1 = (fn1 k, jsSet m k (fn1 k)) ∧
    (∀ fn2 : K → JSVal V → JSOpt V, enComputeIfPresent m k fn2 = (none, m)) ∧
    enMerge m k v fnm = (v, jsSet m k v) ∧
    enSetIfAbsent m k v = (v, jsSet m k v) := by
  cases hg : jsGet m k with
  | none =>
      exact ⟨by simp [enComputeIfAbsent, hg], fun fn2 => by
        simp [enComputeIfPresent, hg], by simp [enMerge, hg], by
        simp [enSetIfAbsent, hg]⟩
  | some jv =>
      cases jv with
      | null =>
          exact ⟨by simp [enComputeIfAbsent, hg], fun fn2 => by
            simp [enComputeIfPresent, hg], by simp [enMerge, hg], by
            simp [enSetIfAbsent, hg]⟩
      | val w => rw [hg] at h; simp [isNullish] at h

/-- Witness for the amended C2 at key 0 of the map `{0 ↦ null}`. -/
theorem C2_amended_witness :
    enComputeIfAbsent ([(0, JSVal.null)] : HMap Nat Nat) 0 (fun _ => JSVal.val 4) =
      (JSVal.val 4, [(0, JSVal.val 4)]) ∧
    enComputeIfPresent ([(0, JSVal.null)] : HMap Nat Nat) 0
        (fun _ _ => some (JSVal.val 9)) = (none, [(0, JSVal.null)]) ∧
    enSetIfAbsent ([(0, JSVal.null)] : HMap Nat Nat) 0 (JSVal.val 4) =
      (JSVal.val 4, [(0, JSVal.val 4)]) := by
  obtain ⟨h1, h2, _, h4⟩ := C2_amended ([(0, JSVal.null)] : HMap Nat Nat) 0
    (by decide) (fun _ => JSVal.val 4) (JSVal.val 4) (fun o _ => o)
  exact ⟨h1, h2 (fun _ _ => some (JSVal.val 9)), h4⟩

/-- C4 counterexample: with key `0` mapped to the nullish marker,
`HashMap.setIfAbsent` returns the nullish marker but stores nothing (the
claim requires the new value to be stored), and `EnMap.setIfAbsent` stores
the new value but returns it rather than the nullish marker. -/
theorem C4_counterexample :
    hashSetIfAbsent ([(0, JSVal.null)] : HMap Nat Nat) 0 (JSVal.val 5) =
      (JSVal.null, [(0, JSVal.null)]) ∧
    ([(0, JSVal.null)] : HMap Nat Nat) ≠ [(0, JSVal.val 5)] ∧
    enSetIfAbsent ([(0, JSVal.null)] : HMap Nat Nat) 0 (JSVal.val 5) =
      (JSVal.val 5, [(0, JSVal.val 5)]) ∧
    (JSVal.val 5 : JSVal Nat) ≠ JSVal.null := by
  exact ⟨rfl, by decide, rfl, by decide⟩

/-- C4 (amended): the three-way `setIfAbsent` contract — store-and-return
the new value on a missing key, store the new value and return the nullish
marker on a `null` value, return the existing value unchanged otherwise —
is honoured by `ExtMap.setIfAbsent` (`HashMap` returns the marker without
storing, `EnMap` stores but returns the new value). -/
theorem C4_amended {K V : Type} [DecidableEq K] [DecidableEq V]
    (m : HMap K V) (k : K) (v : JSVal V) :
    (jsGet m k = none → extSetIfAbsent m k v = (v, jsSet m k v)) ∧
    (jsGet m k = some JSVal.null →
      extSetIfAbsent m k v = (JSVal.null, jsSet m k v)) ∧
    (∀ w, jsGet m k = some (JSVal.val w) → extSetIfAbsent m k v = (JSVal.val w, m)) := by
  refine ⟨fun h => ?_, fun h => ?_, fun w h => ?_⟩ <;> simp [extSetIfAbsent, h]

/-- Witness for the amended C4: the three branches at concrete maps. -/
theorem C4_amended_witness :
    extSetIfAbsent ([] : HMap Nat Nat) 0 (JSVal.val 1) =
      (JSVal.val 1, [(0, JSVal.val 1)]) ∧
    extSetIfAbsent ([(0, JSVal.null)] : HMap Nat Nat) 0 (JSVal.val 1) =
      (JSVal.null, [(0, JSVal.val 1)]) ∧
    extSetIfAbsent ([(0, JSVal.val 9)] : HMap Nat Nat) 0 (JSVal.val 1) =
      (JSVal.val 9, [(0, JSVal.val 9)]) := by
  refine ⟨(C4_amended ([] : HMap Nat Nat) 0 (JSVal.val 1)).1 (by decide),
    (C4_amended ([(0, JSVal.null)] : HMap Nat Nat) 0 (JSVal.val 1)).2.1 (by decide),
    (C4_amended ([(0, JSVal.val 9)] : HMap Nat Nat) 0 (JSVal.val 1)).2.2 9 (by decide)⟩

/-- C5: evaluation at the failing input.  `EnMap.merge` stores a nullish
remapping result and returns it instead of removing the key and returning
`undefined` — contradicting the repository's own test
("merge should remove entry if remapping function returns nullish",
test/enmap.test.ts) and the sibling `EnMap` version in the repository.
(The claim's positive example does hold of `HashMap.merge`: merging 1 with
`(o,n) => o+n` three times from empty yields 3.) -/
theorem C5_merge_failing_input :
    enMerge ([(0, JSVal.val 5)] : HMap Nat Nat) 0 (JSVal.val 1)
        (fun _ _ => JSVal.null) = (JSVal.null, [(0, JSVal.null)]) ∧
    jsHas ([(0, JSVal.null)] : HMap Nat Nat) 0 = true ∧
    jsGet
      ((hashMerge
        ((hashMerge
          ((hashMerge ([] : HMap Nat Nat) 0 (JSVal.val 1)
            (fun o n => match o, n with
              | JSVal.val a, JSVal.val b => some (JSVal.val (a + b))
              | _, _ => none)).2) 0 (JSVal.val 1)
            (fun o n => match o, n with
              | JSVal.val a, JSVal.val b => some (JSVal.val (a + b))
              | _, _ => none)).2) 0 (JSVal.val 1)
            (fun o n => match o, n with
              | JSVal.val a, JSVal.val b => some (JSVal.val (a + b))
              | _, _ => none)).2) 0 = some (JSVal.val 3) := by
  exact ⟨rfl, rfl, rfl⟩

/-- C9 counterexample: on `ExtMap`, if the first `computeIfAbsent` call's
mapping function returns the nullish marker, the key is present afterwards
(`has` is true), yet the second call invokes its function again and returns
that function's value rather than the value stored by the first call. -/
theorem C9_counterexample :
    extComputeIfAbsent ([] : HMap Nat Nat) 0 (fun _ => JSVal.null) =
      (JSVal.null, [(0, JSVal.null)]) ∧
    jsHas ([(0, JSVal.null)] : HMap Nat Nat) 0 = true ∧
    extComputeIfAbsent ([(0, JSVal.null)] : HMap Nat Nat) 0
        (fun _ => JSVal.val 7) = (JSVal.val 7, [(0, JSVal.val 7)]) ∧
    (JSVal.val 7 : JSVal Nat) ≠ JSVal.null := by
  exact ⟨rfl, rfl, rfl, by decide⟩

/-- C9 (amended): for `HashMap.computeIfAbsent` the claim holds as stated:
after any first call the key is mapped to the returned value, and a second
call returns that stored value without invoking its function (the result is
the same for every function).  For `ExtMap.computeIfAbsent` the same holds
provided the value left by the first call is a usable (non-null) value. -/
theorem C9_amended {K V : Type} [DecidableEq K] [DecidableEq V]
    (m : HMap K V) (k : K) (fn : K → JSVal V) :
    jsGet (hashComputeIfAbsent m k fn).2 k = some (hashComputeIfAbsent m k fn).1 ∧
    (∀ fn2, hashComputeIfAbsent (hashComputeIfAbsent m k fn).2 k fn2 =
      ((hashComputeIfAbsent m k fn).1, (hashComputeIfAbsent m k fn).2)) ∧
    (∀ w, (extComputeIfAbsent m k fn).1 = JSVal.val w →
      ∀ fn2, extComputeIfAbsent (extComputeIfAbsent m k fn).2 k fn2 =
        (JSVal.val w, (extComputeIfAbsent m k fn).2)) := by
  refine ⟨?_, ?_, ?_⟩
  · cases hg : jsGet m k with
    | none => simp [hashComputeIfAbsent, hg]
    | some ev => simp [hashComputeIfAbsent, hg]
  · intro fn2
    cases hg : jsGet m k with
    | none => simp [hashComputeIfAbsent, hg]
    | some ev => simp [hashComputeIfAbsent, hg]
  · intro w hw fn2
    cases hg : jsGet m k with
    | none =>
        simp only [extComputeIfAbsent, hg] at hw ⊢
        rw [hw]
        simp [extComputeIfAbsent, hw]
    | some jv =>
        cases jv with
        | null =>
            simp only [extComputeIfAbsent, hg] at hw ⊢
            rw [hw]
            simp [extComputeIfAbsent, hw]
        | val w0 =>
            simp only [extComputeIfAbsent, hg] at hw ⊢
            have : w0 = w := by simpa using hw
            subst this
            simp [extComputeIfAbsent, hg]

/-- Witness for the amended C9: both containers, fresh key 0. -/
theorem C9_amended_witness :
    hashComputeIfAbsent
        ((hashComputeIfAbsent ([] : HMap Nat Nat) 0 (fun _ => JSVal.val 3)).2) 0
        (fun _ => JSVal.val 8) = (JSVal.val 3, [(0, JSVal.val 3)]) ∧
    extComputeIfAbsent
        ((extComputeIfAbsent ([] : HMap Nat Nat) 0 (fun _ => JSVal.val 3)).2) 0
        (fun _ => JSVal.val 8) = (JSVal.val 3, [(0, JSVal.val 3)]) := by
  obtain ⟨_, h2, h3⟩ := C9_amended ([] : HMap Nat Nat) 0 (fun _ => JSVal.val 3)
  exact ⟨h2 (fun _ => JSVal.val 8), h3 3 (by decide) (fun _ => JSVal.val 8)⟩

/-! ## Claims C7, C8, C10: the capacity-bounded map -/

/-- C7: `BoundedHashMap.set` — an existing key delegates unconditionally
regardless of capacity; a new key with `size >= capacity` raises the
capacity-exceeded error (carrying the capacity) and performs no mutation
under `strict`, and under lenient mode performs no insertion, emits the
diagnostic and returns the absent current value (`undefined`); a new key
under capacity delegates normally. -/
theorem C7_boundedSet {K V : Type} [DecidableEq K] [DecidableEq V]
    (s : BState K V) (k : K) (v : JSVal V) :
    (jsHas s.map k = true →
      boundedSet s k v = BSetResult.thisRef (jsSet s.map k v) ∧
      boundedSetState s k v = { s with map := jsSet s.map k v }) ∧
    (jsHas s.map k = false → ((s.map.length : Int) ≥ s.capacity) →
      (s.strict = true →
        boundedSet s k v = BSetResult.errorCapacity s.capacity ∧
        boundedSetState s k v = s) ∧
      (s.strict = false →
        boundedSet s k v = BSetResult.rejectedWarn none ∧
        boundedSetState s k v = s)) ∧
    (jsHas s.map k = false → ((s.map.length : Int) < s.capacity) →
      boundedSet s k v = BSetResult.thisRef (jsSet s.map k v) ∧
      boundedSetState s k v = { s with map := jsSet s.map k v }) := by
  refine ⟨fun hhas => ?_, fun hhas hge => ?_, fun hhas hlt => ?_⟩
  · have hb : boundedSet s k v = BSetResult.thisRef (jsSet s.map k v) := by
      simp [boundedSet, hhas]
    exact ⟨hb, by simp [boundedSetState, hb]⟩
  · have hnone : jsGet s.map k = none := by
      cases hx : jsGet s.map k with
      | none => rfl
      | some a => simp [jsHas, hx] at hhas
    refine ⟨fun hstrict => ?_, fun hstrict => ?_⟩
    · have hb : boundedSet s k v = BSetResult.errorCapacity s.capacity := by
        simp [boundedSet, hhas, hge, hstrict]
      exact ⟨hb, by simp [boundedSetState, hb]⟩
    · have hb : boundedSet s k v = BSetResult.rejectedWarn none := by
        simp [boundedSet, hhas, hge, hstrict, hnone]
      exact ⟨hb, by simp [boundedSetState, hb]⟩
  · have hb : boundedSet s k v = BSetResult.thisRef (jsSet s.map k v) := by
      have : ¬ ((s.map.length : Int) ≥ s.capacity) := by omega
      simp [boundedSet, hhas, this]
    exact ⟨hb, by simp [boundedSetState, hb]⟩

/-- Witness for C7: capacity 1, strict; the spec's own scenario. -/
theorem C7_boundedSet_witness :
    boundedSet (⟨[(0, JSVal.val 1)], 1, true⟩ : BState Nat Nat) 1 (JSVal.val 2) =
      BSetResult.errorCapacity 1 ∧
    boundedSet (⟨[(0, JSVal.val 1)], 1, true⟩ : BState Nat Nat) 0 (JSVal.val 9) =
      BSetResult.thisRef [(0, JSVal.val 9)] ∧
    boundedSet (⟨[], 1, true⟩ : BState Nat Nat) 0 (JSVal.val 1) =
      BSetResult.thisRef [(0, JSVal.val 1)] ∧
    boundedSet (⟨[(0, JSVal.val 1)], 1, false⟩ : BState Nat Nat) 1 (JSVal.val 2) =
      BSetResult.rejectedWarn none := by
  refine ⟨?_, ?_, ?_, ?_⟩
  · exact ((C7_boundedSet (⟨[(0, JSVal.val 1)], 1, true⟩ : BState Nat Nat) 1
      (JSVal.val 2)).2.1 (by decide) (by decide)).1 (by decide) |>.1
  · exact ((C7_boundedSet (⟨[(0, JSVal.val 1)], 1, true⟩ : BState Nat Nat) 0
      (JSVal.val 9)).1 (by decide)).1
  · exact ((C7_boundedSet (⟨[], 1, true⟩ : BState Nat Nat) 0
      (JSVal.val 1)).2.2 (by decide) (by decide)).1
  · exact ((C7_boundedSet (⟨[(0, JSVal.val 1)], 1, false⟩ : BState Nat Nat) 1
      (JSVal.val 2)).2.1 (by decide) (by decide)).2 (by decide) |>.1

/-- C8 counterexample: a `BoundedHashMap` built from an initial iterable of
two distinct-key entries with capacity 1 holds 2 entries — the constructor
runs `setAll` before assigning `_capacity`, so the capacity guard (whose
`size >= undefined` comparison is false in JS) rejects nothing. -/
theorem C8_counterexample :
    (boundedNew2 ([(0, JSVal.val 0), (1, JSVal.val 0)] : List (Nat × JSVal Nat))
      1 none).map.length = 2 ∧
    ¬ ((2 : Int) ≤ 1) := by
  exact ⟨rfl, by decide⟩

theorem bApply_inv {K V : Type} [DecidableEq K] [DecidableEq V]
    (s : BState K V) (op : BOp K V)
    (h : (s.map.length : Int) ≤ s.capacity) :
    ((bApply s op).map.length : Int) ≤ (bApply s op).capacity ∧
    (bApply s op).capacity = s.capacity := by
  have hsetState : ∀ k v,
      ((boundedSetState s k v).map.length : Int) ≤ (boundedSetState s k v).capacity ∧
      (boundedSetState s k v).capacity = s.capacity := by
    intro k v
    cases hhas : jsHas s.map k with
    | true =>
        have hb : boundedSet s k v = BSetResult.thisRef (jsSet s.map k v) := by
          simp [boundedSet, hhas]
        simp only [boundedSetState, hb]
        rw [length_jsSet_of_has s.map k v hhas]
        exact ⟨h, by trivial⟩
    | false =>
        by_cases hge : (s.map.length : Int) ≥ s.capacity
        · cases hstrict : s.strict with
          | true =>
              have hb : boundedSet s k v = BSetResult.errorCapacity s.capacity := by
                simp [boundedSet, hhas, hge, hstrict]
              simp only [boundedSetState, hb]
              exact ⟨h, by trivial⟩
          | false =>
              have hnone : jsGet s.map k = none := by
                cases hx : jsGet s.map k with
                | none => rfl
                | some a => simp [jsHas, hx] at hhas
              have hb : boundedSet s k v = BSetResult.rejectedWarn none := by
                simp [boundedSet, hhas, hge, hstrict, hnone]
              simp only [boundedSetState, hb]
              exact ⟨h, by trivial⟩
        · have hb : boundedSet s k v = BSetResult.thisRef (jsSet s.map k v) := by
            simp [boundedSet, hhas, hge]
          simp only [boundedSetState, hb]
          rw [length_jsSet_of_not_has s.map k v hhas]
          push_cast
          constructor
          · omega
          · trivial
  have hdel : ∀ k, ((jsDelete s.map k).length : Int) ≤ s.capacity := by
    intro k
    have := length_jsDelete_le s.map k
    omega
  cases op with
  | set k v => exact hsetState k v
  | del k value =>
      cases value with
      | none => exact ⟨hdel k, rfl⟩
      | some ev =>
          by_cases hev : jsGet s.map k = some ev
          · have hb : bApply s (BOp.del k (some ev)) =
                { s with map := jsDelete s.map k } := by
              simp [bApply, hev]
            rw [hb]
            exact ⟨hdel k, rfl⟩
          · have hb : bApply s (BOp.del k (some ev)) = s := by
              simp [bApply, hev]
            rw [hb]
            exact ⟨h, rfl⟩
  | clear =>
      have hb : bApply s BOp.clear = { s with map := [] } := rfl
      rw [hb]
      refine ⟨?_, rfl⟩
      simp only [List.length_nil]
      omega
  | compute k fn =>
      cases hf : fn k (jsGet s.map k) with
      | none =>
          have hb : bApply s (BOp.compute k fn) =
              { s with map := jsDelete s.map k } := by
            simp [bApply, hf]
          rw [hb]; exact ⟨hdel k, rfl⟩
      | some nv =>
          have hb : bApply s (BOp.compute k fn) = boundedSetState s k nv := by
            simp [bApply, hf]
          rw [hb]; exact hsetState k nv
  | computeIfAbsent k fn =>
      cases hg : jsGet s.map k with
      | none =>
          have hb : bApply s (BOp.computeIfAbsent k fn) =
              boundedSetState s k (fn k) := by
            simp [bApply, hg]
          rw [hb]; exact hsetState k (fn k)
      | some ev =>
          have hb : bApply s (BOp.computeIfAbsent k fn) = s := by
            simp [bApply, hg]
          rw [hb]; exact ⟨h, rfl⟩
  | computeIfPresent k fn =>
      cases hg : jsGet s.map k with
      | some ev =>
          cases hf : fn k ev with
          | none =>
              have hb : bApply s (BOp.computeIfPresent k fn) =
                  { s with map := jsDelete s.map k } := by
                simp [bApply, hg, hf]
              rw [hb]; exact ⟨hdel k, rfl⟩
          | some nv =>
              have hb : bApply s (BOp.computeIfPresent k fn) =
                  boundedSetState s k nv := by
                simp [bApply, hg, hf]
              rw [hb]; exact hsetState k nv
      | none =>
          have hb : bApply s (BOp.computeIfPresent k fn) = s := by
            simp [bApply, hg]
          rw [hb]; exact ⟨h, rfl⟩
  | merge k v fn =>
      cases hg : jsGet s.map k with
      | some ev =>
          cases hf : fn ev v with
          | none =>
              have hb : bApply s (BOp.merge k v fn) =
                  { s with map := jsDelete s.map k } := by
                simp [bApply, hg, hf]
              rw [hb]; exact ⟨hdel k, rfl⟩
          | some nv =>
              have hb : bApply s (BOp.merge k v fn) = boundedSetState s k nv := by
                simp [bApply, hg, hf]
              rw [hb]; exact hsetState k nv
      | none =>
          have hb : bApply s (BOp.merge k v fn) = boundedSetState s k v := by
            simp [bApply, hg]
          rw [hb]; exact hsetState k v
  | setIfAbsent k v =>
      cases hg : jsGet s.map k with
      | none =>
          have hb : bApply s (BOp.setIfAbsent k v) = boundedSetState s k v := by
            simp [bApply, hg]
          rw [hb]; exact hsetState k v
      | some ev =>
          have hb : bApply s (BOp.setIfAbsent k v) = s := by simp [bApply, hg]
          rw [hb]; exact ⟨h, rfl⟩
  | replace2 k v =>
      cases hg : jsGet s.map k with
      | none =>
          have hb : bApply s (BOp.replace2 k v) = s := by simp [bApply, hg]
          rw [hb]; exact ⟨h, rfl⟩
      | some ev =>
          have hb : bApply s (BOp.replace2 k v) = boundedSetState s k v := by
            simp [bApply, hg]
          rw [hb]; exact hsetState k v
  | replace3 k old v =>
      cases hg : jsGet s.map k with
      | some ev =>
          by_cases hev : ev = old
          · have hb : bApply s (BOp.replace3 k old v) = boundedSetState s k v := by
              simp [bApply, hg, hev]
            rw [hb]; exact hsetState k v
          · have hb : bApply s (BOp.replace3 k old v) = s := by
              simp [bApply, hg, hev]
            rw [hb]; exact ⟨h, rfl⟩
      | none =>
          have hb : bApply s (BOp.replace3 k old v) = s := by simp [bApply, hg]
          rw [hb]; exact ⟨h, rfl⟩

/-- C8 (amended): a `BoundedHashMap` built with the capacity-only
constructor never holds more than `capacity` entries under any sequence of
inherited mutating operations whose insertions go through the overridden
`set` (`set`, `delete`, `clear`, `compute`, `computeIfAbsent`,
`computeIfPresent`, `merge`, `setIfAbsent`, `replace`).  Construction from
an initial iterable is excluded (see the counterexample), as is `put`,
which writes the backing map directly and bypasses the guard. -/
theorem C8_amended {K V : Type} [DecidableEq K] [DecidableEq V]
    (c : Int) (strict : Option Bool) (s0 : BState K V)
    (h : boundedNew1 c strict = BNew.ok s0) (ops : List (BOp K V)) :
    ((bRun s0 ops).map.length : Int) ≤ c := by
  have hc : c > 0 ∧ s0 = ⟨[], c, strict.getD false⟩ := by
    by_cases hcp : c > 0
    · refine ⟨hcp, ?_⟩
      simp only [boundedNew1, if_pos hcp] at h
      exact (BNew.ok.injEq _ _).mp h |>.symm
    · simp [boundedNew1, hcp] at h
  obtain ⟨hcp, hs0⟩ := hc
  subst hs0
  have hstart : ((0 : Int) ≤ c) := by omega
  -- capacity is preserved and the length bound is inductive
  have main : ∀ (ops2 : List (BOp K V)) (s : BState K V),
      ((s.map.length : Int) ≤ s.capacity) → s.capacity = c →
      ((bRun s ops2).map.length : Int) ≤ c := by
    intro ops2
    induction ops2 with
    | nil => intro s hinv hcap; simpa [bRun, hcap] using hinv
    | cons op rest ih =>
        intro s hinv hcap
        obtain ⟨h1, h2⟩ := bApply_inv s op hinv
        exact ih (bApply s op) h1 (h2.trans hcap)
  exact main ops ⟨[], c, strict.getD false⟩ (by simp; omega) rfl

/-- Witness for the amended C8: capacity 1, three sets and a delete never
push the size above 1. -/
theorem C8_amended_witness :
    ((bRun (⟨[], 1, false⟩ : BState Nat Nat)
      [BOp.set 0 (JSVal.val 1), BOp.set 1 (JSVal.val 2),
       BOp.del 0 none, BOp.set 1 (JSVal.val 3)]).map.length : Int) ≤ 1 := by
  exact C8_amended 1 (some false) (⟨[], 1, false⟩ : BState Nat Nat) (by decide) _

/-- C10: when the `strict` flag is omitted in either constructor overload
the map is lenient (`strict = false`), and a lenient map's `set` never
yields the thrown-error outcome: a rejected new-key insertion takes the
warn-and-return path, producing the absent current value. -/
theorem C10_default_lenient {K V : Type} [DecidableEq K] [DecidableEq V]
    (c : Int) (hc : c > 0) (entries : List (K × JSVal V)) (c2 : Int) :
    (∃ s0 : BState K V, boundedNew1 c none = BNew.ok s0 ∧ s0.strict = false) ∧
    (boundedNew2 entries c2 none).strict = false ∧
    (∀ s : BState K V, s.strict = false → ∀ k v,
      (∀ cap, boundedSet s k v ≠ BSetResult.errorCapacity cap) ∧
      (jsHas s.map k = false → (s.map.length : Int) ≥ s.capacity →
        boundedSet s k v = BSetResult.rejectedWarn none)) := by
  refine ⟨⟨⟨[], c, false⟩, by simp [boundedNew1, hc], rfl⟩, rfl, ?_⟩
  intro s hstrict k v
  constructor
  · intro cap hcontra
    by_cases hhas : jsHas s.map k = true
    · simp [boundedSet, hhas] at hcontra
    · have hhf : jsHas s.map k = false := Bool.eq_false_iff.mpr hhas
      by_cases hge : (s.map.length : Int) ≥ s.capacity
      · simp [boundedSet, hhf, hge, hstrict] at hcontra
      · simp [boundedSet, hhf, hge] at hcontra
  · intro hhas hge
    have hnone : jsGet s.map k = none := by
      cases hx : jsGet s.map k with
      | none => rfl
      | some a => simp [jsHas, hx] at hhas
    simp [boundedSet, hhas, hge, hstrict, hnone]

/-- Witness for C10 at capacity 1 with concrete entries. -/
theorem C10_default_lenient_witness :
    (boundedNew2 ([(0, JSVal.val 1)] : List (Nat × JSVal Nat)) 1 none).strict
      = false ∧
    boundedSet (⟨[(0, JSVal.val 1)], 1, false⟩ : BState Nat Nat) 1 (JSVal.val 2)
      = BSetResult.rejectedWarn none := by
  obtain ⟨_, h2, h3⟩ := C10_default_lenient (K := Nat) (V := Nat) 1 (by decide)
    ([(0, JSVal.val 1)]) 1
  exact ⟨h2, (h3 (⟨[(0, JSVal.val 1)], 1, false⟩ : BState Nat Nat) rfl 1
    (JSVal.val 2)).2 (by decide) (by decide)⟩

/-- Witness for C3: deleting key 0 (position 0, not the final slot) from a
two-entry map removes exactly that entry and drops the size by one. -/
theorem C3_arrayMap_swap_delete_witness :
    (arrDelete (aRun ([AOp.set 0 (JSVal.val 10), AOp.set 1 (JSVal.val 20)] :
      List (AOp Nat Nat))) 0 none).1 = true ∧
    arrGet (arrDelete (aRun ([AOp.set 0 (JSVal.val 10),
      AOp.set 1 (JSVal.val 20)] : List (AOp Nat Nat))) 0 none).2 0 = none ∧
    arrGet (arrDelete (aRun ([AOp.set 0 (JSVal.val 10),
      AOp.set 1 (JSVal.val 20)] : List (AOp Nat Nat))) 0 none).2 1 =
      some (JSVal.val 20) ∧
    arrSize (arrDelete (aRun ([AOp.set 0 (JSVal.val 10),
      AOp.set 1 (JSVal.val 20)] : List (AOp Nat Nat))) 0 none).2 = 1 := by
  have hw : AWF (aRun ([AOp.set 0 (JSVal.val 10), AOp.set 1 (JSVal.val 20)] :
      List (AOp Nat Nat))) := (aRun_general _ arrEmpty AWF.empty).1
  obtain ⟨h1, _, _, _, _, _, h7, h8, h9⟩ :=
    C3_arrayMap_swap_delete _ hw 0 0 (by decide)
  refine ⟨h1, h7, ?_, ?_⟩
  · rw [h8 1 (by decide)]
    decide
  · rw [h9]
    decide

/-- Witness for C6: a four-entry container in which two entries satisfy the
predicate — exactly those two values are returned (in order) and the size
drops by two, on both containers. -/
theorem C6_sweep_witness :
    (extSweep (fun v _ => decide (v = JSVal.val 1))
        ([(0, JSVal.val 1), (1, JSVal.val 2), (2, JSVal.val 1),
          (3, JSVal.val 3)] : HMap Nat Nat)).1 =
      [JSVal.val 1, JSVal.val 1] ∧
    (extSweep (fun v _ => decide (v = JSVal.val 1))
        ([(0, JSVal.val 1), (1, JSVal.val 2), (2, JSVal.val 1),
          (3, JSVal.val 3)] : HMap Nat Nat)).2.length = 2 ∧
    arrSize (arrSweep (aRun ([AOp.set 0 (JSVal.val 1), AOp.set 1 (JSVal.val 2),
        AOp.set 2 (JSVal.val 1), AOp.set 3 (JSVal.val 3)] : List (AOp Nat Nat)))
        (fun v _ => decide (v = JSVal.val 1))).2 = 2 := by
  obtain ⟨hext, harr⟩ :=
    C6_sweep (K := Nat) (V := Nat) (fun v _ => decide (v = JSVal.val 1))
  obtain ⟨e1, _, e3⟩ := hext ([(0, JSVal.val 1), (1, JSVal.val 2),
    (2, JSVal.val 1), (3, JSVal.val 3)] : HMap Nat Nat)
  have hw : AWF (aRun ([AOp.set 0 (JSVal.val 1), AOp.set 1 (JSVal.val 2),
      AOp.set 2 (JSVal.val 1), AOp.set 3 (JSVal.val 3)] : List (AOp Nat Nat))) :=
    (aRun_general _ arrEmpty AWF.empty).1
  obtain ⟨_, _, _, _, a5⟩ := harr _ hw
  refine ⟨?_, ?_, ?_⟩
  · rw [e1]; decide
  · rw [e3]; decide
  · rw [a5]; decide

end ExtendedMap
